import Mathlib

/-!
Verification of the Falcon network-topology harness (oxidecomputer/falcon)
against its natural-language specification.

The Rust sources are shallowly embedded: pure computations become Lean
functions, interactions with the host (files, ZFS, libnet datalinks,
bhyvectl, the hypervisor) are modelled by an explicit `HostWorld` record of
outcomes, and fallible code returns `Option` / `Except`.  Every definition
is translated from the source file and line range named in its doc comment.
-/

set_option autoImplicit false

namespace Falcon

/-! ### Decimal rendering and parsing of machine integers

Rust renders numbers into names and sidecar files with `format!` (decimal)
and parses them back with `str::parse`.  We model decimal rendering with an
explicit fuel so that everything reduces by `decide`. -/

/-- Character class `[A-Za-z0-9_]` of the name regex in `src/lib/src/util.rs:7`. -/
def isWordChar (c : Char) : Bool :=
  c.isAlpha || c.isDigit || c = '_'

/-- Numeric value of a decimal digit character. -/
def digitVal (c : Char) : Nat := c.toNat - '0'.toNat

/-- Value of a digit string, most significant digit first
(the accumulator loop of Rust's integer `from_str`). -/
def decodeDigits (cs : List Char) : Nat :=
  cs.foldl (fun a c => 10 * a + digitVal c) 0

/-- Fuel-driven decimal rendering: digits of `n`, most significant first.
With fuel `> n` this is ordinary decimal notation, as produced by
`format!("{}")` in Rust. -/
def decDigitsF : Nat → Nat → List Char
  | 0, _ => []
  | fuel + 1, n =>
    if n < 10 then [Nat.digitChar n]
    else decDigitsF fuel (n / 10) ++ [Nat.digitChar (n % 10)]

/-- Decimal digit list of `n` (most significant first). -/
def decDigits (n : Nat) : List Char := decDigitsF (n + 1) n

/-- Decimal string of `n`, as produced by `format!("{}", n)`. -/
def natRepr (n : Nat) : String := ⟨decDigits n⟩

/-- Whitespace recognized by Rust's `str::trim_end` (restricted to the ASCII
whitespace that can occur in Falcon's plain-text sidecar files). -/
def isRustWS (c : Char) : Bool :=
  c = ' ' || c = '\t' || c = '\n' || c = '\r'

/-- Model of Rust `str::trim_end` on the character list of a string. -/
def trimEndWS (cs : List Char) : List Char :=
  (cs.reverse.dropWhile isRustWS).reverse

/-- Digit run of Rust's integer `from_str` after the optional sign: one or
more decimal digits and nothing else. -/
def digitsParse (ds : List Char) : Option Nat :=
  if ds = [] then none
  else if ds.all Char.isDigit then some (decodeDigits ds) else none

/-- Core of Rust's unsigned integer `from_str`: an optional leading `+`,
then one or more decimal digits and nothing else. -/
def rustParseNat (cs : List Char) : Option Nat :=
  digitsParse (if cs.head? = some '+' then cs.tail else cs)

/-- Rust `u16::from_str` (`"…".parse::<u16>()`): decimal with optional `+`,
rejecting values above `u16::MAX`. -/
def parseU16 (s : String) : Option Nat :=
  match rustParseNat s.data with
  | some n => if n ≤ 65535 then some n else none
  | none => none

/-- Rust `i32::from_str` (`"…".parse::<i32>()`): optional sign, decimal
digits, within the `i32` range. -/
def parseI32 (s : String) : Option Int :=
  if s.data.head? = some '-' then
    match digitsParse s.data.tail with
    | some n => if n ≤ 2147483648 then some (-(n : Int)) else none
    | none => none
  else if s.data.head? = some '+' then
    match digitsParse s.data.tail with
    | some n => if n ≤ 2147483647 then some (n : Int) else none
    | none => none
  else
    match digitsParse s.data with
    | some n => if n ≤ 2147483647 then some (n : Int) else none
    | none => none

/-! ### Sidecar-file read paths

Per-node runtime state lives in plain-text files `{node}.pid`, `{node}.uuid`,
`{node}.port`.  The functions below model exactly the parse applied to the
raw file contents by each reader in the source. -/

/-- Port parse of the `serial`/`console` subcommand, `src/lib/src/cli.rs:543`:
`fs::read_to_string(&path)?.trim_end().parse()`. -/
def consolePortParse (contents : String) : Option Nat :=
  parseU16 ⟨trimEndWS contents.data⟩

/-- Port parse of the `reboot` subcommand, `src/lib/src/cli.rs:704`
(same shape as `console`). -/
def rebootPortParse (contents : String) : Option Nat :=
  parseU16 ⟨trimEndWS contents.data⟩

/-- Port parse of `Runner::do_exec`, `src/lib/src/lib.rs:788`:
`p.as_str().parse::<u16>()` — note: no trim. -/
def doExecPortParse (contents : String) : Option Nat :=
  parseU16 contents

/-- Pid parse of the `hyperstop` subcommand, `src/lib/src/cli.rs:729`:
`pid.trim_end().parse()`. -/
def hyperstopPidParse (contents : String) : Option Int :=
  parseI32 ⟨trimEndWS contents.data⟩

/-- Pid parse of `Node::destroy`, `src/lib/src/lib.rs:1417`:
`pid.parse::<i32>()` — note: no trim. -/
def nodeDestroyPidParse (contents : String) : Option Int :=
  parseI32 contents

/-! ### Serial commander (`src/lib/src/serial.rs`)

The WebSocket stream is modelled as the list of binary messages received, a
message being its character list.  `drain_match` accumulates messages and
stops at the first regex match in the accumulated data, truncating at the
match start; exhausting the stream (or a timeout / close / error, which we
collapse into the same failure) yields `none`. -/

/-- The end-of-command sentinel `EOC_DETECTOR`, `src/lib/src/serial.rs:35`. -/
def EOC : List Char := "__FALCON_EXEC_FINISHED__".data

/-- Does `needle` occur at the very start of `hay`? -/
def startsWithL : List Char → List Char → Bool
  | [], _ => true
  | _ :: _, [] => false
  | c :: n, d :: h => c = d && startsWithL n h

/-- Index of the leftmost occurrence of `needle` in `hay`: the semantics of
`Regex::find` for the unanchored literal pattern `(?mR)__FALCON_EXEC_FINISHED__`
built in `SerialCommander::new`, `src/lib/src/serial.rs:46`. -/
def firstOccurIdx (needle : List Char) : List Char → Option Nat
  | [] => if startsWithL needle [] then some 0 else none
  | c :: t =>
    if startsWithL needle (c :: t) then some 0
    else (firstOccurIdx needle t).map (· + 1)

/-- Is a position whose preceding character is `prev` a line start for the
`(?mR)^` anchor (start of input, or right after a line terminator)? -/
def isLineStartAfter : Option Char → Bool
  | none => true
  | some c => c = '\n' || c = '\r'

/-- Helper for `anchoredOccurIdx`, carrying the previous character. -/
def anchoredOccurAux (needle : List Char) : Option Char → List Char → Option Nat
  | prev, [] =>
    if isLineStartAfter prev && startsWithL needle [] then some 0 else none
  | prev, c :: t =>
    if isLineStartAfter prev && startsWithL needle (c :: t) then some 0
    else (anchoredOccurAux needle (some c) t).map (· + 1)

/-- Leftmost line-anchored occurrence of `needle`: the semantics of the
anchored pattern `(?mR)^__FALCON_EXEC_FINISHED__` built during login,
`src/lib/src/serial.rs:192`.  (For a needle that cannot start with `\n`
the CRLF subtlety of `(?mR)` is immaterial.) -/
def anchoredOccurIdx (needle : List Char) (hay : List Char) : Option Nat :=
  anchoredOccurAux needle none hay

/-- Model of `SerialCommander::drain_match`, `src/lib/src/serial.rs:255`:
append each received binary message to the accumulated result, search the
whole accumulation with the regex, and on a match truncate at the match
start and stop.  A stream that ends without a match is an `Exec` error
(`none`), as are timeout, close and error arms. -/
def drainMatch (find : List Char → Option Nat) : List Char → List (List Char) → Option (List Char)
  | _, [] => none
  | acc, m :: ms =>
    match find (acc ++ m) with
    | some i => some ((acc ++ m).take i)
    | none => drainMatch find (acc ++ m) ms

/-- Split a character list at every occurrence of `sep` (the pieces of
Rust's `str::split`); the separator is consumed, and the result is always
nonempty. -/
def splitCh (sep : Char) : List Char → List (List Char)
  | [] => [[]]
  | c :: t =>
    if c = sep then [] :: splitCh sep t
    else
      match splitCh sep t with
      | [] => [[c]]
      | p :: ps => (c :: p) :: ps

/-- Remove one trailing carriage return (the `\r` of a `\r\n` terminator),
as Rust's `str::lines` does for every `\n`-terminated line. -/
def stripCR (l : List Char) : List Char :=
  match l.getLast? with
  | some '\r' => l.dropLast
  | _ => l

/-- Turn the `\n`-split pieces into Rust `str::lines` output: the final
piece is dropped when empty (trailing newline) and kept verbatim otherwise;
every `\n`-terminated piece loses one trailing `\r`. -/
def rustLinesPieces : List (List Char) → List (List Char)
  | [] => []
  | [p] => if p = [] then [] else [p]
  | p :: ps => stripCR p :: rustLinesPieces ps

/-- Model of Rust `str::lines` on a character list. -/
def rustLinesL (s : List Char) : List (List Char) :=
  rustLinesPieces (splitCh '\n' s)

/-- The output post-processing of `SerialCommander::exec_timeout`,
`src/lib/src/serial.rs:228`: skip the first line (the echoed command),
re-join the remaining lines each followed by `\n`, then pop the final
character. -/
def execStrip (out : List Char) : List Char :=
  ((((rustLinesL out).drop 1).map (fun l => l ++ ['\n'])).flatten).dropLast

/-- Model of `SerialCommander::exec_timeout` after the command has been
sent: drain the stream with the unanchored sentinel regex, then strip. -/
def execOutput (msgs : List (List Char)) : Option (List Char) :=
  (drainMatch (firstOccurIdx EOC) [] msgs).map execStrip

/-- Spec-side reading of the exec contract: the raw accumulated bytes with
everything up to and including the first newline removed. -/
def dropFirstLineBytes : List Char → List Char
  | [] => []
  | c :: t => if c = '\n' then t else dropFirstLineBytes t

/-- Spec-side reading of the exec contract: remove one trailing newline. -/
def removeTrailingNL (l : List Char) : List Char :=
  if l.getLast? = some '\n' then l.dropLast else l

/-- Spec-side exec output: first line stripped, trailing newline removed. -/
def specExecStrip (out : List Char) : List Char :=
  removeTrailingNL (dropFirstLineBytes out)

/-- Serial byte stream for `exec("echo hello")` on a guest TTY: the echoed
command line, the command output, then the prompt-command sentinel. -/
def echoHelloMsgs : List (List Char) :=
  ["echo hello\r\n".data, "hello\r\n".data, "__FALCON_EXEC_FINISHED__\r\n".data]

/-- The echoed command line of `exec("echo __FALCON_EXEC_FINISHED__")`:
the sentinel occurs mid-line, inside the echo of the command itself. -/
def echoSentinelMsg : List Char := "echo __FALCON_EXEC_FINISHED__\r\n".data

/-! ### Name checking (`src/lib/src/util.rs`)

`NAME_REGEX` is `^[A-Za-z]?[A-Za-z0-9_]*$`; `namecheck!` matches a name
against it and terminates the process (`die!`) on a mismatch, so every
constructed deployment/node name satisfies it. -/

/-- Acceptance by `NAME_REGEX = ^[A-Za-z]?[A-Za-z0-9_]*$`
(`src/lib/src/util.rs:7`): the optional branch either consumes no
character or consumes a first letter; the rest are word characters. -/
def nameRegexAccepts (s : String) : Bool :=
  match s.data with
  | [] => true
  | c :: cs => (c :: cs).all isWordChar || (c.isAlpha && cs.all isWordChar)

/-- The name regex as the specification states it: `[A-Za-z][A-Za-z0-9_]*`,
with a mandatory leading letter. -/
def specNameAccepts (s : String) : Bool :=
  match s.data with
  | [] => false
  | c :: cs => c.isAlpha && cs.all isWordChar

/-! ### Topology data model (`src/lib/src/lib.rs:122-277`)

`NodeRef` is the index of a node in `Deployment::nodes`; endpoints carry a
node reference, a per-node index, and a kind.  Node fields that no claim
depends on (mounts, uuid, dataset, do_setup, reserved, backing, vnc port,
component map, smbios) are omitted from the embedding. -/

/-- Endpoint kinds, `src/lib/src/lib.rs:238`. -/
inductive EndpointKind : Type
  | viona (mac : Option String)
  | softnpu (mac : Option String)
deriving DecidableEq, Repr

/-- Kind tag used in host link names, `EndpointKind::designator`,
`src/lib/src/lib.rs:248`. -/
def EndpointKind.designator : EndpointKind → String
  | .viona _ => "vn"
  | .softnpu _ => "sn"

/-- An endpoint of a link, `src/lib/src/lib.rs:258`: node reference,
per-node index, kind. -/
structure Endpoint : Type where
  node : Nat
  index : Nat
  kind : EndpointKind
deriving DecidableEq, Repr

/-- A point-to-point link: the pair `endpoints: [Endpoint; 2]`,
`src/lib/src/lib.rs:225`. -/
structure Link : Type where
  e0 : Endpoint
  e1 : Endpoint
deriving DecidableEq, Repr

/-- An external link, `src/lib/src/lib.rs:230`. -/
structure ExtLink : Type where
  endpoint : Endpoint
  hostIfx : String
deriving DecidableEq, Repr

/-- A node, `src/lib/src/lib.rs:161` (fields relevant to the claims). -/
structure Node : Type where
  name : String
  image : String
  radix : Nat
  cores : Nat
  memory : Nat
deriving DecidableEq, Repr

/-- A deployment, `src/lib/src/lib.rs:126`. -/
structure Deployment : Type where
  name : String
  nodes : List Node
  links : List Link
  extLinks : List ExtLink
deriving DecidableEq, Repr

/-- `Deployment::new` (after its namecheck), `src/lib/src/lib.rs:819`. -/
def Deployment.new (name : String) : Deployment :=
  ⟨name, [], [], []⟩

/-- Radix of node `i` (0 out of range; the source indexes in range only). -/
def Deployment.radixOf (d : Deployment) (i : Nat) : Nat :=
  match d.nodes.get? i with
  | some n => n.radix
  | none => 0

/-- Name of node `i` (empty out of range; the source indexes in range only). -/
def Deployment.nodeNameOf (d : Deployment) (i : Nat) : String :=
  match d.nodes.get? i with
  | some n => n.name
  | none => ""

/-- Increment the radix of node `i` (`self.deployment.nodes[i].radix += 1`). -/
def bumpNodes : List Node → Nat → List Node
  | [], _ => []
  | n :: t, 0 => { n with radix := n.radix + 1 } :: t
  | n :: t, i + 1 => n :: bumpNodes t i

/-- Radix bump on a deployment. -/
def Deployment.bump (d : Deployment) (i : Nat) : Deployment :=
  { d with nodes := bumpNodes d.nodes i }

/-- `Runner::node` (after its namecheck), `src/lib/src/lib.rs:349`: append a
node with radix 0; the returned `NodeRef` is the previous length. -/
def Deployment.nodeOp (d : Deployment) (name image : String) (cores memory : Nat) : Deployment :=
  { d with nodes := d.nodes ++ [⟨name, image, 0, cores, memory⟩] }

/-- `Runner::link`, `src/lib/src/lib.rs:412`: both endpoints take the
current radix of their node as index, kind `Viona(None)`; then the link is
pushed and both radixes are bumped. -/
def Deployment.linkOp (d : Deployment) (a b : Nat) : Deployment :=
  let l : Link := ⟨⟨a, d.radixOf a, .viona none⟩, ⟨b, d.radixOf b, .viona none⟩⟩
  (({ d with links := d.links ++ [l] }).bump a).bump b

/-- `Runner::softnpu_link`, `src/lib/src/lib.rs:436`. -/
def Deployment.softnpuLinkOp (d : Deployment) (softnpuNode node : Nat)
    (nodeMac softnpuMac : Option String) : Deployment :=
  let l : Link := ⟨⟨softnpuNode, d.radixOf softnpuNode, .softnpu softnpuMac⟩,
                   ⟨node, d.radixOf node, .viona nodeMac⟩⟩
  (({ d with links := d.links ++ [l] }).bump softnpuNode).bump node

/-- `Runner::softnpu_links`, `src/lib/src/lib.rs:466`: both endpoints are
SoftNPU. -/
def Deployment.softnpuLinksOp (d : Deployment) (node1 node2 : Nat)
    (mac1 mac2 : Option String) : Deployment :=
  let l : Link := ⟨⟨node1, d.radixOf node1, .softnpu mac1⟩,
                   ⟨node2, d.radixOf node2, .softnpu mac2⟩⟩
  (({ d with links := d.links ++ [l] }).bump node1).bump node2

/-- `Runner::ext_link`, `src/lib/src/lib.rs:509`. -/
def Deployment.extLinkOp (d : Deployment) (hostIfx : String) (n : Nat) : Deployment :=
  let e : Endpoint := ⟨n, d.radixOf n, .viona none⟩
  ({ d with extLinks := d.extLinks ++ [(⟨e, hostIfx⟩ : ExtLink)] }).bump n

/-- `Deployment::simnet_link_name`, `src/lib/src/lib.rs:829`:
`{deployment}_{node}_{designator}_sim{index}`. -/
def Deployment.simnetLinkName (d : Deployment) (e : Endpoint) : String :=
  d.name ++ "_" ++ d.nodeNameOf e.node ++ "_" ++ e.kind.designator ++ "_sim" ++ natRepr e.index

/-- `Deployment::vnic_link_name`, `src/lib/src/lib.rs:839`:
`{deployment}_{node}_{designator}_vnic{index}`. -/
def Deployment.vnicLinkName (d : Deployment) (e : Endpoint) : String :=
  d.name ++ "_" ++ d.nodeNameOf e.node ++ "_" ++ e.kind.designator ++ "_vnic" ++ natRepr e.index

/-- Deployments reachable through the construction API: `Runner::new`
followed by any sequence of `node`, `link`, `softnpu_link`,
`softnpu_links`, `ext_link` calls.  Node references are handed out by
`node` and are therefore always in range; `namecheck!` terminates the
process on a name not matching `NAME_REGEX`, so constructed names satisfy
it. -/
inductive Built : Deployment → Prop
  | new (name : String) (h : nameRegexAccepts name = true) :
      Built (Deployment.new name)
  | node (d : Deployment) (hb : Built d) (name image : String) (cores memory : Nat)
      (h : nameRegexAccepts name = true) :
      Built (d.nodeOp name image cores memory)
  | link (d : Deployment) (hb : Built d) (a b : Nat)
      (ha : a < d.nodes.length) (hbn : b < d.nodes.length) :
      Built (d.linkOp a b)
  | softnpuLink (d : Deployment) (hb : Built d) (a b : Nat) (m1 m2 : Option String)
      (ha : a < d.nodes.length) (hbn : b < d.nodes.length) :
      Built (d.softnpuLinkOp a b m1 m2)
  | softnpuLinks (d : Deployment) (hb : Built d) (a b : Nat) (m1 m2 : Option String)
      (ha : a < d.nodes.length) (hbn : b < d.nodes.length) :
      Built (d.softnpuLinksOp a b m1 m2)
  | extLink (d : Deployment) (hb : Built d) (ifx : String) (n : Nat)
      (hn : n < d.nodes.length) :
      Built (d.extLinkOp ifx n)

/-- Endpoints contributed by the point-to-point links, in order. -/
def Deployment.linkEndpoints (d : Deployment) : List Endpoint :=
  (d.links.map (fun l => [l.e0, l.e1])).flatten

/-- Endpoints contributed by the external links, in order. -/
def Deployment.extEndpoints (d : Deployment) : List Endpoint :=
  d.extLinks.map ExtLink.endpoint

/-- All endpoints of a deployment. -/
def Deployment.allEndpoints (d : Deployment) : List Endpoint :=
  d.linkEndpoints ++ d.extEndpoints

/-- Node names are pairwise distinct. -/
def NamesDistinct (d : Deployment) : Prop :=
  List.Pairwise (fun a b => a ≠ b) (d.nodes.map Node.name)

/-- No link joins a node to itself. -/
def NoSelfLinks (d : Deployment) : Prop :=
  ∀ l ∈ d.links, l.e0.node ≠ l.e1.node

/-- An endpoint is well-formed for `d`: node in range and index below the
node's radix. -/
def EndpointWF (d : Deployment) (e : Endpoint) : Prop :=
  e.node < d.nodes.length ∧ e.index < d.radixOf e.node

/-- Two endpoints on the same node have different per-node indices. -/
def DistinctIdx (e e' : Endpoint) : Prop :=
  e.node = e'.node → e.index ≠ e'.index

/-- The two-node deployment of the duo example: nodes `violin` and `piano`
joined by one link. -/
def duoDep : Deployment :=
  (((Deployment.new "duo").nodeOp "violin" "helios-2.5" 1 1024).nodeOp
      "piano" "helios-2.5" 1 1024).linkOp 0 1

/-- A deployment with a SoftNPU self-link: one node, and
`softnpu_links(n, n, Some "a", Some "b")` joining it to itself. -/
def selfLinkDep : Deployment :=
  ((Deployment.new "duo").nodeOp "violin" "helios-2.5" 1 1024).softnpuLinksOp
    0 0 (some "a") (some "b")

/-! ### MAC parsing (`Link::create`, `src/lib/src/lib.rs:1470`)

A supplied Viona MAC is parsed during link creation (at launch) by
splitting on `:` and parsing each piece with `u8::from_str_radix(p, 16)`;
the construction API never inspects MAC strings, and SoftNPU MACs are not
parsed at all (`if let EndpointKind::Viona(Some(mac))`). -/

/-- Rust `char::is_ascii_hexdigit`-style class used by `from_str_radix(_, 16)`. -/
def isHexDigitCh (c : Char) : Bool :=
  c.isDigit || ('a' ≤ c && c ≤ 'f') || ('A' ≤ c && c ≤ 'F')

/-- Value of one hex digit character. -/
def hexVal (c : Char) : Nat :=
  if c.isDigit then c.toNat - '0'.toNat
  else if 'a' ≤ c then c.toNat - 'a'.toNat + 10
  else c.toNat - 'A'.toNat + 10

/-- Hex digit run of `u8::from_str_radix(p, 16)` after the optional sign:
one or more hex digits whose value fits in a `u8`. -/
def hexCore (ds : List Char) : Option Nat :=
  if ds = [] then none
  else if ds.all isHexDigitCh then
    if ds.foldl (fun a c => 16 * a + hexVal c) 0 ≤ 255 then
      some (ds.foldl (fun a c => 16 * a + hexVal c) 0)
    else none
  else none

/-- Rust `u8::from_str_radix(p, 16)`: optional `+`, one or more hex digits,
value within `u8`. -/
def parseHexU8 (cs : List Char) : Option Nat :=
  hexCore (if cs.head? = some '+' then cs.tail else cs)

/-- The MAC-parsing loop of `Link::create`, `src/lib/src/lib.rs:1497`:
split on `:`, parse every piece as a hex `u8`; any parse failure is a
runtime error (`?`), and no count check is performed. -/
def macOctets (mac : String) : Option (List Nat) :=
  (splitCh ':' mac.data).mapM parseHexU8

/-- The MAC-validation step `Link::create` performs per endpoint,
`src/lib/src/lib.rs:1496-1506`: only `Viona(Some(mac))` is parsed; parse
failure aborts link creation with a parse error.  (The surrounding host
datalink calls do not affect MAC validation and are modelled elsewhere.) -/
def endpointMacStep (e : Endpoint) : Except String Unit :=
  match e.kind with
  | .viona (some mac) =>
    match macOctets mac with
    | some _ => .ok ()
    | none => .error mac
  | _ => .ok ()

/-- MAC validation of a whole link (both endpoints, in order). -/
def linkMacChecks (l : Link) : Except String Unit :=
  match endpointMacStep l.e0 with
  | .ok () => endpointMacStep l.e1
  | .error m => .error m

/-- A deployment whose link carries the malformed Viona MAC `"zz"`:
accepted verbatim by the construction API. -/
def badMacDep : Deployment :=
  (((Deployment.new "duo").nodeOp "violin" "helios-2.5" 1 1024).nodeOp
      "piano" "helios-2.5" 1 1024).softnpuLinkOp 0 1 (some "zz") none

/-! ### Image volume sizing (`src/lib/src/lib.rs:1102`) -/

/-- The allocation size computed by `try_create_zfs_volume_for_image`,
`src/lib/src/lib.rs:1109`: `let bsize = fsize + 4096 - fsize % 4096;`. -/
def imageVolSize (fsize : Nat) : Nat :=
  fsize + 4096 - fsize % 4096

/-- The allocation size the specification states:
`ceil(length / 4096) * 4096`. -/
def specAllocSize (fsize : Nat) : Nat :=
  ((fsize + 4095) / 4096) * 4096

/-! ### Snapshot subcommand (`src/lib/src/cli.rs:463`) -/

/-- The four `zfs` commands issued by the `snapshot` subcommand,
`src/lib/src/cli.rs:486-523`, in order.  Note `dest_snapshot` at line 490
is built with `format!("{}@base", source)` — from `source`, not `dest`. -/
def snapshotZfsCmds (dataset depName nodeName snapName : String) : List (List String) :=
  let source := dataset ++ "/topo/" ++ depName ++ "/" ++ nodeName
  let sourceSnapshot := source ++ "@base"
  let dest := dataset ++ "/img/" ++ snapName
  let destSnapshot := source ++ "@base"
  [["snapshot", sourceSnapshot],
   ["clone", sourceSnapshot, dest],
   ["promote", dest],
   ["snapshot", destSnapshot]]

/-! ### Teardown (`Runner::destroy`, `Node::destroy`, `Link::destroy`)

Host interactions are modelled by a `HostWorld` of outcomes: the contents
of the pid / uuid sidecar files per node name, whether spawning `bhyvectl`
succeeds and its exit status, the outcome of each libnet `delete_link`
attempt per link name and attempt number, and the outcomes of the `zfs
destroy -r` / `rm -rf` spawns and of `clean_workspace`.  Exit-status fields
that the source never consults are present but deliberately unread. -/

/-- Errors surfaced by the teardown model (shapes of `error::Error`). -/
inductive DErr : Type
  | datalink (link : String)
  | io (what : String)
deriving DecidableEq, Repr

/-- Observable teardown actions of `Node::destroy`. -/
inductive DAction : Type
  | kill (pid : Int)
  | bhyvectl (uuid : String)
deriving DecidableEq, Repr

/-- Outcomes of every host interaction teardown performs. -/
structure HostWorld : Type where
  /-- Contents of `{node}.pid` (`none` = read error / missing file). -/
  pidFile : String → Option String
  /-- Contents of `{node}.uuid` (`none` = read error / missing file). -/
  uuidFile : String → Option String
  /-- Whether spawning `bhyvectl --destroy --vm={uuid}` succeeds. -/
  bhyvectlSpawnOk : String → Bool
  /-- Exit status of `bhyvectl` — captured by `output()` but never
  consulted by the source. -/
  bhyvectlExitOk : String → Bool
  /-- Outcome of libnet `delete_link` on a link name at a given attempt. -/
  deleteLink : String → Nat → Bool
  /-- Whether spawning `zfs destroy -r {dataset}/topo/{name}` succeeds. -/
  zfsDestroySpawnOk : Bool
  /-- Exit status of the `zfs destroy` — never consulted by the source. -/
  zfsDestroyExitOk : Bool
  /-- Whether spawning `rm -rf /var/falcon/dsk/{name}` succeeds. -/
  rmSpawnOk : Bool
  /-- Exit status of the `rm -rf` — never consulted by the source. -/
  rmExitOk : Bool
  /-- Whether `clean_workspace` (read_dir plus removals) succeeds. -/
  cleanWorkspaceOk : Bool

/-- Model of `Node::destroy`, `src/lib/src/lib.rs:1412`, returning the
actions taken and the result.  Every failure arm warns and returns `Ok`:
missing or unparseable pid, missing uuid, and a `bhyvectl` spawn failure
each end the teardown early with `Ok(())`; a non-zero `bhyvectl` exit
status is ignored (`Ok(_) => {}`). -/
def nodeDestroy (w : HostWorld) (name : String) : List DAction × Except DErr Unit :=
  match w.pidFile name with
  | none => ([], .ok ())
  | some s =>
    match parseI32 s with
    | none => ([], .ok ())
    | some pid =>
      match w.uuidFile name with
      | none => ([DAction.kill pid], .ok ())
      | some u =>
        if w.bhyvectlSpawnOk u then ([DAction.kill pid, DAction.bhyvectl u], .ok ())
        else ([DAction.kill pid], .ok ())

/-- Model of `libnet_retry`, `src/lib/src/lib.rs:1763`: up to 30 attempts
in the loop, then one final attempt whose error propagates. -/
def retryOk (f : Nat → Bool) : Bool :=
  (List.range 30).any f || f 30

/-- A retried libnet `delete_link` call on `link`, as performed during
`Link::destroy` / `ExtLink::destroy`. -/
def deleteLinkRetry (w : HostWorld) (link : String) : Except DErr Unit :=
  if retryOk (w.deleteLink link) then .ok () else .error (.datalink link)

/-- Model of `Link::destroy`, `src/lib/src/lib.rs:1545`: per endpoint,
delete the vnic then the simnet, propagating failures with `?`. -/
def linkDestroyM (w : HostWorld) (d : Deployment) (l : Link) : Except DErr Unit := do
  deleteLinkRetry w (d.vnicLinkName l.e0)
  deleteLinkRetry w (d.simnetLinkName l.e0)
  deleteLinkRetry w (d.vnicLinkName l.e1)
  deleteLinkRetry w (d.simnetLinkName l.e1)

/-- Model of `ExtLink::destroy`, `src/lib/src/lib.rs:1595`. -/
def extLinkDestroyM (w : HostWorld) (d : Deployment) (x : ExtLink) : Except DErr Unit :=
  deleteLinkRetry w (d.vnicLinkName x.endpoint)

/-- Internal-link half of `Runner::net_destroy`, `src/lib/src/lib.rs:683`. -/
def destroyLinksM (w : HostWorld) (d : Deployment) : List Link → Except DErr Unit
  | [] => .ok ()
  | l :: t => do
    linkDestroyM w d l
    destroyLinksM w d t

/-- External-link half of `Runner::net_destroy`. -/
def destroyExtLinksM (w : HostWorld) (d : Deployment) : List ExtLink → Except DErr Unit
  | [] => .ok ()
  | x :: t => do
    extLinkDestroyM w d x
    destroyExtLinksM w d t

/-- Model of `Runner::net_destroy`: all links, then all external links. -/
def netDestroyM (w : HostWorld) (d : Deployment) : Except DErr Unit := do
  destroyLinksM w d d.links
  destroyExtLinksM w d d.extLinks

/-- The per-node teardown loop of `Runner::destroy`
(`for n in ... { n.destroy(self)?; }`). -/
def destroyNodesM (w : HostWorld) : List Node → Except DErr Unit
  | [] => .ok ()
  | n :: t => do
    (nodeDestroy w n.name).2
    destroyNodesM w t

/-- Model of `Runner::destroy`, `src/lib/src/lib.rs:698`: node teardown,
`net_destroy`, `zfs destroy -r` (spawn checked with `?`, exit status
ignored), `rm -rf` (ditto), then `clean_workspace` — each wired with `?`,
so an error aborts the remaining steps. -/
def runnerDestroyM (w : HostWorld) (d : Deployment) : Except DErr Unit := do
  destroyNodesM w d.nodes
  netDestroyM w d
  (if w.zfsDestroySpawnOk then Except.ok () else Except.error (.io "zfs destroy"))
  (if w.rmSpawnOk then Except.ok () else Except.error (.io "rm dsk"))
  if w.cleanWorkspaceOk then Except.ok () else Except.error (.io "clean workspace")

/-- The link names deleted by `Runner::destroy`, in deletion order. -/
def deleteTargets (d : Deployment) : List String :=
  (d.links.map (fun l =>
    [d.vnicLinkName l.e0, d.simnetLinkName l.e0,
     d.vnicLinkName l.e1, d.simnetLinkName l.e1])).flatten
  ++ d.extLinks.map (fun x => d.vnicLinkName x.endpoint)

/-- A world in which every host interaction succeeds and both sidecar
files of every node hold well-formed values. -/
def wAllOk : HostWorld where
  pidFile _ := some "123"
  uuidFile _ := some "d5716416-5792-4e06-a1a2-8cbc59000c2f"
  bhyvectlSpawnOk _ := true
  bhyvectlExitOk _ := true
  deleteLink _ _ := true
  zfsDestroySpawnOk := true
  zfsDestroyExitOk := true
  rmSpawnOk := true
  rmExitOk := true
  cleanWorkspaceOk := true

/-- A world in which every libnet `delete_link` attempt fails persistently
while everything else (including workspace removal) would succeed. -/
def wDeleteFails : HostWorld :=
  { wAllOk with deleteLink := fun _ _ => false }

/-- A world in which the pid sidecar file of every node is missing. -/
def wNoPid : HostWorld :=
  { wAllOk with pidFile := fun _ => none }

/-! ### Auxiliary predicates and the common shape of the link operations -/

/-- Common shape of `link`, `softnpu_link` and `softnpu_links`: push a link
whose endpoints take the current radixes of `a` and `b` with the given
kinds, then bump both radixes. -/
def Deployment.addLink (d : Deployment) (a b : Nat) (k1 k2 : EndpointKind) : Deployment :=
  let l : Link := ⟨⟨a, d.radixOf a, k1⟩, ⟨b, d.radixOf b, k2⟩⟩
  (({ d with links := d.links ++ [l] }).bump a).bump b

/-- Does a character list start with something other than a decimal digit
(or is empty)? -/
def headNotDigit (l : List Char) : Prop :=
  ∀ c, l.head? = some c → c.isDigit = false

/-- Does a character list end with something other than a decimal digit
(or is empty)? -/
def lastNotDigit (l : List Char) : Prop :=
  ∀ c, l.getLast? = some c → c.isDigit = false

/-- Invariant maintained by the construction API (given no self-links):
every endpoint is in range with its index below its node's radix, and any
two endpoint occurrences on the same node carry different indices. -/
def Inv (d : Deployment) : Prop :=
  (∀ e ∈ d.linkEndpoints, EndpointWF d e) ∧
  (∀ e ∈ d.extEndpoints, EndpointWF d e) ∧
  List.Pairwise DistinctIdx d.linkEndpoints ∧
  List.Pairwise DistinctIdx d.extEndpoints ∧
  (∀ e ∈ d.linkEndpoints, ∀ e' ∈ d.extEndpoints, DistinctIdx e e')

/-! ## Theorems -/

/-! ### Decimal rendering -/

theorem digitChar_isDigit {n : Nat} (h : n < 10) : (Nat.digitChar n).isDigit = true := by
  interval_cases n <;> decide

theorem digitVal_digitChar {n : Nat} (h : n < 10) : digitVal (Nat.digitChar n) = n := by
  interval_cases n <;> decide

theorem decodeDigits_concat (xs : List Char) (c : Char) :
    decodeDigits (xs ++ [c]) = 10 * decodeDigits xs + digitVal c := by
  unfold decodeDigits
  rw [List.foldl_append]
  rfl

theorem decDigitsF_spec : ∀ fuel n : Nat, n < fuel →
    (decDigitsF fuel n).all Char.isDigit = true ∧
    decodeDigits (decDigitsF fuel n) = n ∧
    decDigitsF fuel n ≠ [] := by
  intro fuel
  induction fuel with
  | zero => intro n h; omega
  | succ fuel ih =>
    intro n h
    by_cases h10 : n < 10
    · refine ⟨?_, ?_, ?_⟩ <;> simp [decDigitsF, h10, digitChar_isDigit h10]
      · show decodeDigits [Nat.digitChar n] = n
        have : decodeDigits [Nat.digitChar n] = digitVal (Nat.digitChar n) := by
          unfold decodeDigits; simp
        rw [this, digitVal_digitChar h10]
    · have hdiv : n / 10 < fuel := by omega
      obtain ⟨ha, hd, hn⟩ := ih (n / 10) hdiv
      have hm : n % 10 < 10 := Nat.mod_lt _ (by omega)
      refine ⟨?_, ?_, ?_⟩
      · simp [decDigitsF, h10, List.all_append, ha, digitChar_isDigit hm]
      · simp only [decDigitsF, if_neg h10]
        rw [decodeDigits_concat, hd, digitVal_digitChar hm]
        omega
      · simp [decDigitsF, h10]

theorem decDigits_all (n : Nat) : (decDigits n).all Char.isDigit = true :=
  (decDigitsF_spec (n + 1) n (Nat.lt_succ_self n)).1

theorem decodeDigits_decDigits (n : Nat) : decodeDigits (decDigits n) = n :=
  (decDigitsF_spec (n + 1) n (Nat.lt_succ_self n)).2.1

theorem decDigits_ne_nil (n : Nat) : decDigits n ≠ [] :=
  (decDigitsF_spec (n + 1) n (Nat.lt_succ_self n)).2.2

theorem decDigits_inj {a b : Nat} (h : decDigits a = decDigits b) : a = b := by
  have := congrArg decodeDigits h
  rwa [decodeDigits_decDigits, decodeDigits_decDigits] at this

/-! ### Character classes -/

theorem digit_isWordChar {c : Char} (h : c.isDigit = true) : isWordChar c = true := by
  simp [isWordChar, h]

theorem alpha_isWordChar {c : Char} (h : c.isAlpha = true) : isWordChar c = true := by
  simp [isWordChar, h]

theorem digit_not_ws {c : Char} (h : c.isDigit = true) : isRustWS c = false := by
  unfold isRustWS
  by_cases h1 : c = ' '
  · subst h1; exact absurd h (by decide)
  by_cases h2 : c = '\t'
  · subst h2; exact absurd h (by decide)
  by_cases h3 : c = '\n'
  · subst h3; exact absurd h (by decide)
  by_cases h4 : c = '\r'
  · subst h4; exact absurd h (by decide)
  simp [h1, h2, h3, h4]

theorem digit_ne_plus {c : Char} (h : c.isDigit = true) : c ≠ '+' := by
  intro hc; subst hc; exact absurd h (by decide)

theorem digit_ne_minus {c : Char} (h : c.isDigit = true) : c ≠ '-' := by
  intro hc; subst hc; exact absurd h (by decide)

/-! ### Integer parsing and trimming -/

theorem digitsParse_of_newline {ds : List Char} (h : '\n' ∈ ds) : digitsParse ds = none := by
  unfold digitsParse
  have hne : ds ≠ [] := by rintro rfl; simp at h
  have hall : ds.all Char.isDigit = false := by
    rcases hb : ds.all Char.isDigit with _ | _
    · rfl
    · rw [List.all_eq_true] at hb
      exact absurd (hb '\n' h) (by decide)
  rw [if_neg hne, hall]
  simp

theorem rustParseNat_of_newline {cs : List Char} (h : '\n' ∈ cs) : rustParseNat cs = none := by
  unfold rustParseNat
  by_cases hp : cs.head? = some '+'
  · rw [if_pos hp]
    apply digitsParse_of_newline
    cases cs with
    | nil => simp at h
    | cons c t =>
      simp at hp
      subst hp
      cases h with
      | tail _ ht => exact ht
  · rw [if_neg hp]; exact digitsParse_of_newline h

theorem parseU16_of_newline {s : String} (h : '\n' ∈ s.data) : parseU16 s = none := by
  unfold parseU16
  rw [rustParseNat_of_newline h]

theorem mem_tail_of_newline {c : Char} {t : List Char} (hc : c ≠ '\n')
    (h : '\n' ∈ c :: t) : '\n' ∈ t := by
  cases h with
  | head => exact absurd rfl hc.symm
  | tail _ ht => exact ht

theorem parseI32_of_newline {s : String} (h : '\n' ∈ s.data) : parseI32 s = none := by
  unfold parseI32
  by_cases hm : s.data.head? = some '-'
  · rw [if_pos hm]
    have : '\n' ∈ s.data.tail := by
      cases hd : s.data with
      | nil => rw [hd] at h; simp at h
      | cons c t =>
        rw [hd] at hm h
        simp at hm
        subst hm
        simpa using mem_tail_of_newline (by decide) h
    rw [digitsParse_of_newline this]
  · rw [if_neg hm]
    by_cases hp : s.data.head? = some '+'
    · rw [if_pos hp]
      have : '\n' ∈ s.data.tail := by
        cases hd : s.data with
        | nil => rw [hd] at h; simp at h
        | cons c t =>
          rw [hd] at hp h
          simp at hp
          subst hp
          simpa using mem_tail_of_newline (by decide) h
      rw [digitsParse_of_newline this]
    · rw [if_neg hp, digitsParse_of_newline h]

theorem digitsParse_decDigits (n : Nat) : digitsParse (decDigits n) = some n := by
  unfold digitsParse
  rw [if_neg (decDigits_ne_nil n), decDigits_all n]
  simp [decodeDigits_decDigits n]

theorem decDigits_head_digit (n : Nat) :
    ∀ c, (decDigits n).head? = some c → c.isDigit = true := by
  intro c hc
  cases hd : decDigits n with
  | nil => exact absurd hd (decDigits_ne_nil n)
  | cons x t =>
    rw [hd] at hc
    simp at hc
    subst hc
    have := decDigits_all n
    rw [hd] at this
    simp [List.all_cons] at this
    exact this.1

theorem rustParseNat_decDigits (n : Nat) : rustParseNat (decDigits n) = some n := by
  unfold rustParseNat
  have hp : (decDigits n).head? ≠ some '+' := by
    intro hc
    exact digit_ne_plus (decDigits_head_digit n '+' hc) rfl
  rw [if_neg hp]
  exact digitsParse_decDigits n

theorem dropWhile_eq_self_of_not {p : Char → Bool} {l : List Char}
    (h : ∀ c ∈ l, p c = false) : l.dropWhile p = l := by
  cases l with
  | nil => rfl
  | cons c t =>
    rw [List.dropWhile_cons, if_neg]
    simp [h c (List.mem_cons_self c t)]

theorem dropWhile_append_all {p : Char → Bool} :
    ∀ a b : List Char, (∀ c ∈ a, p c = true) → (a ++ b).dropWhile p = b.dropWhile p := by
  intro a
  induction a with
  | nil => intro b _; rfl
  | cons c t ih =>
    intro b h
    rw [List.cons_append, List.dropWhile_cons, if_pos]
    · exact ih b fun x hx => h x (List.mem_cons_of_mem c hx)
    · simp [h c (List.mem_cons_self c t)]

theorem trimEnd_value_ws {v ws : List Char} (hv : ∀ c ∈ v, isRustWS c = false)
    (hws : ∀ c ∈ ws, isRustWS c = true) : trimEndWS (v ++ ws) = v := by
  unfold trimEndWS
  rw [List.reverse_append, dropWhile_append_all _ _ (by simpa using hws),
    dropWhile_eq_self_of_not (by simpa using hv), List.reverse_reverse]

theorem trimEnd_digits_newline {ds : List Char} (hd : ds.all Char.isDigit = true) :
    trimEndWS (ds ++ ['\n']) = ds := by
  apply trimEnd_value_ws
  · intro c hc
    exact digit_not_ws ((List.all_eq_true.mp hd) c hc)
  · intro c hc
    simp at hc
    subst hc
    decide

theorem parseU16_decDigits {n : Nat} (h : n ≤ 65535) : parseU16 ⟨decDigits n⟩ = some n := by
  unfold parseU16
  show (match rustParseNat (decDigits n) with
    | some n => if n ≤ 65535 then some n else none
    | none => none) = some n
  rw [rustParseNat_decDigits n]
  simp [h]

theorem parseI32_decDigits {n : Nat} (h : n ≤ 2147483647) :
    parseI32 ⟨decDigits n⟩ = some (n : Int) := by
  unfold parseI32
  have hm : (⟨decDigits n⟩ : String).data.head? ≠ some '-' := by
    intro hc
    exact digit_ne_minus (decDigits_head_digit n '-' hc) rfl
  have hp : (⟨decDigits n⟩ : String).data.head? ≠ some '+' := by
    intro hc
    exact digit_ne_plus (decDigits_head_digit n '+' hc) rfl
  rw [if_neg hm, if_neg hp]
  show (match digitsParse (decDigits n) with
    | some n => if n ≤ 2147483647 then some (n : Int) else none
    | none => none) = some (n : Int)
  rw [digitsParse_decDigits n]
  simp [h]

/-- C6 (counterexample).  The claim says every sidecar read path trims
trailing whitespace before parsing; but the `.port` read of
`Runner::do_exec` and the `.pid` read of `Node::destroy` parse the raw
contents, so the very values the CLI paths accept fail there. -/
theorem C6_untrimmed_reads_fail :
    doExecPortParse "4000\n" = none ∧
    nodeDestroyPidParse "77\n" = none ∧
    consolePortParse "4000\n" = some 4000 ∧
    hyperstopPidParse "77\n" = some 77 := by
  refine ⟨?_, ?_, ?_, ?_⟩ <;> decide

/-- C6 (amended).  The CLI read paths — `serial`/`console` and `reboot`
(`.port`), `hyperstop` (`.pid`), `hyperstart` (`.uuid`) — trim trailing
whitespace before parsing, so a stored decimal value followed by a newline
parses there; but `Runner::do_exec` parses `.port` and `Node::destroy`
parses `.pid` without trimming, and a trailing newline makes those parses
fail (`do_exec` surfaces a parse error; `Node::destroy` warns and returns
Ok, skipping the node teardown).  Without a trailing newline every path
parses the value. -/
theorem C6_sidecar_trim_mixed (n : Nat) (hn : n ≤ 65535) :
    consolePortParse ⟨decDigits n ++ ['\n']⟩ = some n ∧
    rebootPortParse ⟨decDigits n ++ ['\n']⟩ = some n ∧
    hyperstopPidParse ⟨decDigits n ++ ['\n']⟩ = some (n : Int) ∧
    doExecPortParse ⟨decDigits n ++ ['\n']⟩ = none ∧
    nodeDestroyPidParse ⟨decDigits n ++ ['\n']⟩ = none ∧
    consolePortParse ⟨decDigits n⟩ = some n ∧
    doExecPortParse ⟨decDigits n⟩ = some n ∧
    nodeDestroyPidParse ⟨decDigits n⟩ = some (n : Int) := by
  have htrim : trimEndWS (decDigits n ++ ['\n']) = decDigits n :=
    trimEnd_digits_newline (decDigits_all n)
  have hmem : '\n' ∈ (⟨decDigits n ++ ['\n']⟩ : String).data := by
    show '\n' ∈ decDigits n ++ ['\n']
    simp
  have htrim0 : trimEndWS (decDigits n) = decDigits n := by
    unfold trimEndWS
    rw [dropWhile_eq_self_of_not, List.reverse_reverse]
    intro c hc
    rw [List.mem_reverse] at hc
    exact digit_not_ws ((List.all_eq_true.mp (decDigits_all n)) c hc)
  refine ⟨?_, ?_, ?_, ?_, ?_, ?_, ?_, ?_⟩
  · show parseU16 ⟨trimEndWS (decDigits n ++ ['\n'])⟩ = some n
    rw [htrim]; exact parseU16_decDigits hn
  · show parseU16 ⟨trimEndWS (decDigits n ++ ['\n'])⟩ = some n
    rw [htrim]; exact parseU16_decDigits hn
  · show parseI32 ⟨trimEndWS (decDigits n ++ ['\n'])⟩ = some (n : Int)
    rw [htrim]; exact parseI32_decDigits (by omega)
  · exact parseU16_of_newline hmem
  · exact parseI32_of_newline hmem
  · show parseU16 ⟨trimEndWS (decDigits n)⟩ = some n
    rw [htrim0]; exact parseU16_decDigits hn
  · exact parseU16_decDigits hn
  · exact parseI32_decDigits (by omega)

/-- C6 (witness): the amended theorem at the concrete port value 4000. -/
theorem C6_sidecar_trim_mixed_witness :
    consolePortParse ⟨decDigits 4000 ++ ['\n']⟩ = some 4000 ∧
    doExecPortParse ⟨decDigits 4000 ++ ['\n']⟩ = none :=
  ⟨(C6_sidecar_trim_mixed 4000 (by decide)).1,
   (C6_sidecar_trim_mixed 4000 (by decide)).2.2.2.1⟩

/-! ### C4: image volume allocation size -/

/-- C4 (counterexample).  For a decompressed length that is already a
multiple of 4096 the code allocates one extra 4096 block: `bsize` at
`src/lib/src/lib.rs:1109` is `fsize + 4096 - fsize % 4096`, which is 8192
at `fsize = 4096`, while `ceil(4096/4096)*4096 = 4096`. -/
theorem C4_alloc_exact_multiple_overshoots :
    imageVolSize 4096 = 8192 ∧ specAllocSize 4096 = 4096 := by
  constructor <;> decide

/-- C4 (amended).  The allocation size is `fsize + 4096 - fsize % 4096 =
4096 * (fsize / 4096 + 1)`: the next multiple of 4096 strictly above any
exact multiple, and equal to `ceil(fsize/4096)*4096` exactly when `fsize`
is not a multiple of 4096. -/
theorem C4_alloc_size_formula (L : Nat) :
    imageVolSize L = 4096 * (L / 4096 + 1) ∧
    (L % 4096 ≠ 0 → imageVolSize L = specAllocSize L) := by
  unfold imageVolSize specAllocSize
  constructor <;> omega

/-- C4 (witness): the amended formula at `L = 5000`. -/
theorem C4_alloc_size_formula_witness :
    5000 % 4096 ≠ 0 ∧ imageVolSize 5000 = specAllocSize 5000 :=
  ⟨by decide, (C4_alloc_size_formula 5000).2 (by decide)⟩

/-! ### C5: the snapshot subcommand -/

/-- C5 (code bug).  `snapshot NODE NAME` is supposed to finish by
snapshotting the new image `{dataset}/img/{NAME}@base` (both per the spec
and per the source's own comment "finally create base snapshot for new
image"), but `dest_snapshot` at `src/lib/src/cli.rs:490` is built from
`source`: the fourth `zfs` command snapshots
`{dataset}/topo/{deployment}/{NODE}@base` again (a snapshot that step one
already created), not the new image. -/
theorem C5_snapshot_final_snapshots_source :
    snapshotZfsCmds "rpool/falcon" "duo" "violin" "mysnap" =
      [["snapshot", "rpool/falcon/topo/duo/violin@base"],
       ["clone", "rpool/falcon/topo/duo/violin@base", "rpool/falcon/img/mysnap"],
       ["promote", "rpool/falcon/img/mysnap"],
       ["snapshot", "rpool/falcon/topo/duo/violin@base"]] ∧
    ("rpool/falcon/topo/duo/violin@base" : String) ≠ "rpool/falcon/img/mysnap@base" := by
  constructor <;> decide

/-! ### C8: the name regex -/

theorem bumpNodes_map_name : ∀ (l : List Node) (i : Nat),
    (bumpNodes l i).map Node.name = l.map Node.name := by
  intro l
  induction l with
  | nil => intro i; rfl
  | cons n t ih =>
    intro i
    cases i with
    | zero => simp [bumpNodes]
    | succ j => simp [bumpNodes, ih j]

/-- C8 (counterexample).  `NAME_REGEX` in `src/lib/src/util.rs:7` is
`^[A-Za-z]?[A-Za-z0-9_]*$` — the leading letter is optional — so the name
`"0"` is accepted by the code while the claim's regex
`[A-Za-z][A-Za-z0-9_]*` rejects it. -/
theorem C8_leading_digit_accepted :
    nameRegexAccepts "0" = true ∧ specNameAccepts "0" = false := by
  constructor <;> decide

/-- C8 (amended).  Names are checked at construction against
`^[A-Za-z]?[A-Za-z0-9_]*$`, which (since letters are word characters) is
equivalent to `^[A-Za-z0-9_]*$`: any string of letters, digits and
underscores — including the empty string and names starting with a digit
or underscore — is accepted, anything else is rejected at construction
(`die!` exits the process) and names are never re-checked.  Every name in
a constructed deployment satisfies the check, and any name matching the
spec's stricter regex is accepted. -/
theorem C8_name_regex_optional_letter :
    (∀ s : String, nameRegexAccepts s = s.data.all isWordChar) ∧
    (∀ s : String, specNameAccepts s = true → nameRegexAccepts s = true) ∧
    (∀ d : Deployment, Built d →
      nameRegexAccepts d.name = true ∧ ∀ nd ∈ d.nodes, nameRegexAccepts nd.name = true) := by
  have hacc : ∀ s : String, nameRegexAccepts s = s.data.all isWordChar := by
    intro s
    unfold nameRegexAccepts
    cases hd : s.data with
    | nil => simp
    | cons c cs =>
      cases ha : c.isAlpha with
      | false => simp [ha]
      | true =>
        cases hall : cs.all isWordChar with
        | false => simp [hall]
        | true => simp [hall, List.all_cons, alpha_isWordChar ha]
  refine ⟨hacc, ?_, ?_⟩
  · intro s h
    rw [hacc]
    unfold specNameAccepts at h
    cases hd : s.data with
    | nil => rw [hd] at h; simp at h
    | cons c cs =>
      rw [hd] at h
      simp only [Bool.and_eq_true] at h
      simp [List.all_cons, alpha_isWordChar h.1, h.2]
  · intro d hb
    induction hb with
    | new name h => exact ⟨h, by simp [Deployment.new]⟩
    | node d hb name image cores memory h ih =>
      refine ⟨ih.1, ?_⟩
      intro nd hnd
      simp [Deployment.nodeOp] at hnd
      rcases hnd with hnd | hnd
      · exact ih.2 nd hnd
      · subst hnd; exact h
    | link d hb a b ha hbn ih =>
      refine ⟨ih.1, ?_⟩
      intro nd hnd
      have hname : nd.name ∈ (d.linkOp a b).nodes.map Node.name :=
        List.mem_map_of_mem Node.name hnd
      have : (d.linkOp a b).nodes.map Node.name = d.nodes.map Node.name := by
        simp [Deployment.linkOp, Deployment.bump, bumpNodes_map_name]
      rw [this] at hname
      obtain ⟨nd', hnd', heq⟩ := List.mem_map.mp hname
      rw [← heq]
      exact ih.2 nd' hnd'
    | softnpuLink d hb a b m1 m2 ha hbn ih =>
      refine ⟨ih.1, ?_⟩
      intro nd hnd
      have hname : nd.name ∈ (d.softnpuLinkOp a b m1 m2).nodes.map Node.name :=
        List.mem_map_of_mem Node.name hnd
      have : (d.softnpuLinkOp a b m1 m2).nodes.map Node.name = d.nodes.map Node.name := by
        simp [Deployment.softnpuLinkOp, Deployment.bump, bumpNodes_map_name]
      rw [this] at hname
      obtain ⟨nd', hnd', heq⟩ := List.mem_map.mp hname
      rw [← heq]
      exact ih.2 nd' hnd'
    | softnpuLinks d hb a b m1 m2 ha hbn ih =>
      refine ⟨ih.1, ?_⟩
      intro nd hnd
      have hname : nd.name ∈ (d.softnpuLinksOp a b m1 m2).nodes.map Node.name :=
        List.mem_map_of_mem Node.name hnd
      have : (d.softnpuLinksOp a b m1 m2).nodes.map Node.name = d.nodes.map Node.name := by
        simp [Deployment.softnpuLinksOp, Deployment.bump, bumpNodes_map_name]
      rw [this] at hname
      obtain ⟨nd', hnd', heq⟩ := List.mem_map.mp hname
      rw [← heq]
      exact ih.2 nd' hnd'
    | extLink d hb ifx n hn ih =>
      refine ⟨ih.1, ?_⟩
      intro nd hnd
      have hname : nd.name ∈ (d.extLinkOp ifx n).nodes.map Node.name :=
        List.mem_map_of_mem Node.name hnd
      have : (d.extLinkOp ifx n).nodes.map Node.name = d.nodes.map Node.name := by
        simp [Deployment.extLinkOp, Deployment.bump, bumpNodes_map_name]
      rw [this] at hname
      obtain ⟨nd', hnd', heq⟩ := List.mem_map.mp hname
      rw [← heq]
      exact ih.2 nd' hnd'

/-- C8 (witness): a spec-regex name is accepted, at `"abc"`. -/
theorem C8_name_regex_optional_letter_witness :
    specNameAccepts "abc" = true ∧ nameRegexAccepts "abc" = true :=
  ⟨by decide, C8_name_regex_optional_letter.2.1 "abc" (by decide)⟩

/-! ### Serial drain: occurrence lemmas -/

theorem sw_length : ∀ {n h : List Char}, startsWithL n h = true → n.length ≤ h.length := by
  intro n
  induction n with
  | nil => intro h _; simp
  | cons c t ih =>
    intro h hs
    cases h with
    | nil => simp [startsWithL] at hs
    | cons d hd =>
      simp only [startsWithL, Bool.and_eq_true] at hs
      simpa using ih hs.2

theorem sw_ne_nil {n h : List Char} (hn : n ≠ []) (hs : startsWithL n h = true) : h ≠ [] := by
  intro hnil
  subst hnil
  cases n with
  | nil => exact hn rfl
  | cons c t => simp [startsWithL] at hs

theorem sw_append {n : List Char} : ∀ {a : List Char} (t : List Char),
    startsWithL n a = true → startsWithL n (a ++ t) = true := by
  induction n with
  | nil => intro a t _; simp [startsWithL]
  | cons c m ih =>
    intro a t hs
    cases a with
    | nil => simp [startsWithL] at hs
    | cons d b =>
      simp only [startsWithL, Bool.and_eq_true] at hs
      simp only [List.cons_append, startsWithL, Bool.and_eq_true]
      exact ⟨hs.1, ih t hs.2⟩

theorem sw_of_append {n : List Char} : ∀ {a : List Char} {t : List Char},
    startsWithL n (a ++ t) = true → n.length ≤ a.length → startsWithL n a = true := by
  induction n with
  | nil => intro a t _ _; cases a <;> simp [startsWithL]
  | cons c m ih =>
    intro a t hs hl
    cases a with
    | nil => simp at hl
    | cons d b =>
      simp only [List.cons_append, startsWithL, Bool.and_eq_true] at hs
      simp only [startsWithL, Bool.and_eq_true]
      exact ⟨hs.1, ih hs.2 (by simpa using hl)⟩

theorem fo_occur {n : List Char} : ∀ {h : List Char} {i : Nat},
    firstOccurIdx n h = some i → startsWithL n (h.drop i) = true := by
  intro h
  induction h with
  | nil =>
    intro i hf
    unfold firstOccurIdx at hf
    by_cases hs : startsWithL n [] = true
    · rw [if_pos hs] at hf
      cases hf
      simpa using hs
    · rw [if_neg hs] at hf; cases hf
  | cons c t ih =>
    intro i hf
    unfold firstOccurIdx at hf
    by_cases hs : startsWithL n (c :: t) = true
    · rw [if_pos hs] at hf
      cases hf
      simpa using hs
    · rw [if_neg hs] at hf
      rcases Option.map_eq_some'.mp hf with ⟨j, hj, hji⟩
      subst hji
      simpa using ih hj

theorem fo_min {n : List Char} : ∀ {h : List Char} {i : Nat},
    firstOccurIdx n h = some i → ∀ j < i, startsWithL n (h.drop j) = false := by
  intro h
  induction h with
  | nil =>
    intro i hf j hj
    unfold firstOccurIdx at hf
    by_cases hs : startsWithL n [] = true
    · rw [if_pos hs] at hf; cases hf; omega
    · rw [if_neg hs] at hf; cases hf
  | cons c t ih =>
    intro i hf j hj
    unfold firstOccurIdx at hf
    by_cases hs : startsWithL n (c :: t) = true
    · rw [if_pos hs] at hf; cases hf; omega
    · rw [if_neg hs] at hf
      rcases Option.map_eq_some'.mp hf with ⟨k, hk, hki⟩
      subst hki
      cases j with
      | zero => simpa using Bool.eq_false_iff.mpr hs
      | succ j' =>
        have := ih hk j' (by omega)
        simpa using this

theorem fo_some_of {n : List Char} : ∀ {h : List Char} {i : Nat},
    startsWithL n (h.drop i) = true →
    (∀ j < i, startsWithL n (h.drop j) = false) →
    firstOccurIdx n h = some i := by
  intro h
  induction h with
  | nil =>
    intro i hocc hmin
    have hi : i = 0 := by
      by_contra hne
      have := hmin 0 (by omega)
      simp only [List.drop_nil] at this hocc
      rw [this] at hocc
      cases hocc
    subst hi
    unfold firstOccurIdx
    rw [if_pos (by simpa using hocc)]
  | cons c t ih =>
    intro i hocc hmin
    cases i with
    | zero =>
      unfold firstOccurIdx
      rw [if_pos (by simpa using hocc)]
    | succ k =>
      have h0 : startsWithL n (c :: t) = false := by simpa using hmin 0 (by omega)
      unfold firstOccurIdx
      rw [if_neg (by simp [h0])]
      have : firstOccurIdx n t = some k := by
        apply ih
        · simpa using hocc
        · intro j hj
          simpa using hmin (j + 1) (by omega)
      rw [this]
      rfl

theorem fo_lt_length {n h : List Char} {i : Nat} (hn : n ≠ [])
    (hf : firstOccurIdx n h = some i) : i < h.length := by
  have hocc := fo_occur hf
  have hne := sw_ne_nil hn hocc
  by_contra hge
  rw [List.drop_eq_nil_of_le (by omega)] at hne
  exact hne rfl

theorem fo_append_some {n s : List Char} (t : List Char) {i : Nat} (hn : n ≠ [])
    (hf : firstOccurIdx n s = some i) : firstOccurIdx n (s ++ t) = some i := by
  have hocc := fo_occur hf
  have hil : i < s.length := fo_lt_length hn hf
  have hnl : n.length ≤ s.length - i := by
    have := sw_length hocc
    simpa using this
  apply fo_some_of
  · rw [List.drop_append_of_le_length (by omega)]
    exact sw_append t hocc
  · intro j hj
    rw [List.drop_append_of_le_length (by omega)]
    rcases hb : startsWithL n (s.drop j ++ t) with _ | _
    · rfl
    · have hjl : n.length ≤ (s.drop j).length := by
        rw [List.length_drop]
        omega
      have := sw_of_append hb hjl
      rw [fo_min hf j hj] at this
      cases this

/-- Core drain lemma: when the sentinel occurs in the concatenated stream,
`drain_match` returns exactly the prefix up to the leftmost occurrence. -/
theorem drainMatch_eq {n : List Char} (hn : n ≠ []) :
    ∀ (msgs : List (List Char)) (acc : List Char) (i : Nat),
    firstOccurIdx n acc = none →
    firstOccurIdx n (acc ++ msgs.flatten) = some i →
    drainMatch (firstOccurIdx n) acc msgs = some ((acc ++ msgs.flatten).take i) := by
  intro msgs
  induction msgs with
  | nil =>
    intro acc i hnone hsome
    rw [List.flatten_nil, List.append_nil] at hsome
    rw [hnone] at hsome
    cases hsome
  | cons m ms ih =>
    intro acc i hnone hsome
    have hflat : acc ++ (m :: ms).flatten = (acc ++ m) ++ ms.flatten := by
      rw [List.flatten_cons, List.append_assoc]
    cases hf : firstOccurIdx n (acc ++ m) with
    | some j =>
      have hext : firstOccurIdx n ((acc ++ m) ++ ms.flatten) = some j :=
        fo_append_some ms.flatten hn hf
      rw [hflat] at hsome
      rw [hsome] at hext
      cases hext
      have hjl : i < (acc ++ m).length := fo_lt_length hn hf
      have hle : i ≤ (acc ++ m).length := by omega
      simp only [drainMatch, hf]
      rw [hflat, List.take_append_of_le_length hle]
    | none =>
      simp only [drainMatch, hf]
      rw [hflat] at hsome ⊢
      exact ih (acc ++ m) i hf hsome

/-! ### Rust `str::lines` and the exec strip -/

theorem splitCh_ne_nil (sep : Char) : ∀ l : List Char, splitCh sep l ≠ [] := by
  intro l
  induction l with
  | nil => simp [splitCh]
  | cons c t ih =>
    unfold splitCh
    by_cases hc : c = sep
    · simp [hc]
    · rw [if_neg hc]
      cases hs : splitCh sep t with
      | nil => simp
      | cons p ps => simp

theorem splitCh_cons_ne {sep c : Char} (t : List Char) (hc : ¬ c = sep) :
    splitCh sep (c :: t) =
      match splitCh sep t with
      | [] => [[c]]
      | p :: ps => (c :: p) :: ps := by
  conv_lhs => unfold splitCh
  rw [if_neg hc]

theorem splitCh_no_sep {sep : Char} : ∀ {a : List Char}, sep ∉ a → splitCh sep a = [a] := by
  intro a
  induction a with
  | nil => intro _; rfl
  | cons c t ih =>
    intro h
    have hc : ¬ c = sep := fun hcc => h (hcc ▸ List.mem_cons_self c t)
    have ht : sep ∉ t := fun htt => h (List.mem_cons_of_mem c htt)
    unfold splitCh
    rw [if_neg hc, ih ht]

theorem splitCh_append_sep {sep : Char} : ∀ {a : List Char} (b : List Char), sep ∉ a →
    splitCh sep (a ++ sep :: b) = a :: splitCh sep b := by
  intro a
  induction a with
  | nil =>
    intro b _
    simp [splitCh]
  | cons c t ih =>
    intro b h
    have hc : ¬ c = sep := fun hcc => h (hcc ▸ List.mem_cons_self c t)
    have ht : sep ∉ t := fun htt => h (List.mem_cons_of_mem c htt)
    show splitCh sep (c :: (t ++ sep :: b)) = (c :: t) :: splitCh sep b
    rw [splitCh_cons_ne _ hc, ih b ht]

theorem char_split (c : Char) : ∀ l : List Char,
    c ∉ l ∨ ∃ a b : List Char, l = a ++ c :: b ∧ c ∉ a := by
  intro l
  induction l with
  | nil => left; simp
  | cons x t ih =>
    by_cases hx : x = c
    · right
      exact ⟨[], t, by rw [hx]; rfl, by simp⟩
    · rcases ih with hnot | ⟨a, b, heq, hna⟩
      · left
        intro hmem
        cases hmem with
        | head => exact hx rfl
        | tail _ hmem => exact hnot hmem
      · right
        refine ⟨x :: a, b, by rw [heq]; rfl, ?_⟩
        intro hmem
        cases hmem with
        | head => exact hx rfl
        | tail _ hmem => exact hna hmem

theorem rustLinesL_no_nl {a : List Char} (h : '\n' ∉ a) (hne : a ≠ []) :
    rustLinesL a = [a] := by
  unfold rustLinesL
  rw [splitCh_no_sep h]
  simp [rustLinesPieces, hne]

theorem rustLinesL_cons_nl {a : List Char} (b : List Char) (h : '\n' ∉ a) :
    rustLinesL (a ++ '\n' :: b) = stripCR a :: rustLinesL b := by
  unfold rustLinesL
  rw [splitCh_append_sep b h]
  cases hs : splitCh '\n' b with
  | nil => exact absurd hs (splitCh_ne_nil '\n' b)
  | cons p ps => simp [rustLinesPieces]

theorem stripCR_of_no_cr {a : List Char} (h : '\r' ∉ a) : stripCR a = a := by
  unfold stripCR
  split
  · rename_i heq
    exact absurd (List.mem_of_mem_getLast? (by rw [heq]; rfl)) h
  · rfl

theorem dfl_no_nl : ∀ {l : List Char}, '\n' ∉ l → dropFirstLineBytes l = [] := by
  intro l
  induction l with
  | nil => intro _; rfl
  | cons c t ih =>
    intro h
    have hc : ¬ c = '\n' := fun hcc => h (hcc ▸ List.mem_cons_self c t)
    unfold dropFirstLineBytes
    rw [if_neg hc]
    exact ih fun htt => h (List.mem_cons_of_mem c htt)

theorem dfl_append : ∀ {a : List Char} (b : List Char), '\n' ∉ a →
    dropFirstLineBytes (a ++ '\n' :: b) = b := by
  intro a
  induction a with
  | nil => intro b _; simp [dropFirstLineBytes]
  | cons c t ih =>
    intro b h
    have hc : ¬ c = '\n' := fun hcc => h (hcc ▸ List.mem_cons_self c t)
    show dropFirstLineBytes (c :: (t ++ '\n' :: b)) = b
    unfold dropFirstLineBytes
    rw [if_neg hc]
    exact ih b fun htt => h (List.mem_cons_of_mem c htt)

theorem rt_nil : removeTrailingNL [] = [] := by
  simp [removeTrailingNL]

theorem rt_no_nl {l : List Char} (h : '\n' ∉ l) : removeTrailingNL l = l := by
  unfold removeTrailingNL
  rw [if_neg]
  intro heq
  exact h (List.mem_of_mem_getLast? (by rw [heq]; rfl))

theorem rt_concat_nl (a : List Char) : removeTrailingNL (a ++ ['\n']) = a := by
  unfold removeTrailingNL
  rw [if_pos (List.getLast?_concat a), List.dropLast_concat]

theorem rt_cons_prefix (a : List Char) {b : List Char} (hb : b ≠ []) :
    removeTrailingNL (a ++ '\n' :: b) = a ++ '\n' :: removeTrailingNL b := by
  have hsplit : a ++ '\n' :: b = (a ++ ['\n']) ++ b := by simp
  unfold removeTrailingNL
  rw [hsplit, List.getLast?_append_of_ne_nil _ hb]
  by_cases hl : b.getLast? = some '\n'
  · rw [if_pos hl, if_pos hl, List.dropLast_append_of_ne_nil _ hb]
    simp
  · rw [if_neg hl, if_neg hl]
    simp

theorem flatten_map_nl_ne_nil {r : List Char} (rs : List (List Char)) :
    ((r :: rs).map (fun l => l ++ ['\n'])).flatten ≠ [] := by
  simp

theorem joinPop_rustLines : ∀ (N : Nat) (b : List Char), b.length ≤ N → '\r' ∉ b →
    (((rustLinesL b).map (fun l => l ++ ['\n'])).flatten).dropLast = removeTrailingNL b := by
  intro N
  induction N with
  | zero =>
    intro b hlen _
    have : b = [] := by
      cases b with
      | nil => rfl
      | cons c t => simp at hlen
    subst this
    simp [rustLinesL, splitCh, rustLinesPieces, rt_nil]
  | succ N ih =>
    intro b hlen hcr
    rcases char_split '\n' b with hno | ⟨a, b', heq, hna⟩
    · cases hb : b with
      | nil => simp [rustLinesL, splitCh, rustLinesPieces, rt_nil]
      | cons c t =>
        rw [← hb]
        rw [rustLinesL_no_nl hno (by rw [hb]; simp), rt_no_nl hno]
        simp
    · subst heq
      have hcra : '\r' ∉ a := fun hm => hcr (List.mem_append_left _ hm)
      have hcrb : '\r' ∉ b' := fun hm => hcr (List.mem_append_right _ (List.mem_cons_of_mem _ hm))
      rw [rustLinesL_cons_nl b' hna, stripCR_of_no_cr hcra]
      cases hb' : b' with
      | nil =>
        subst hb'
        show ((([a] : List (List Char)).map (fun l => l ++ ['\n'])).flatten).dropLast
          = removeTrailingNL (a ++ ['\n'])
        rw [rt_concat_nl]
        simp
      | cons c' t' =>
        rw [← hb']
        have hbne : b' ≠ [] := by rw [hb']; simp
        have hlen' : b'.length ≤ N := by
          simp [List.length_append] at hlen
          omega
        cases hrs : rustLinesL b' with
        | nil =>
          exfalso
          rcases char_split '\n' b' with hno' | ⟨a', b'', heq', hna'⟩
          · rw [rustLinesL_no_nl hno' hbne] at hrs
            cases hrs
          · rw [heq', rustLinesL_cons_nl b'' hna'] at hrs
            cases hrs
        | cons r rs =>
          rw [← hrs]
          have hJ : ((rustLinesL b').map (fun l => l ++ ['\n'])).flatten ≠ [] := by
            rw [hrs]
            exact flatten_map_nl_ne_nil rs
          show (((a ++ ['\n']) ++ ((rustLinesL b').map (fun l => l ++ ['\n'])).flatten)).dropLast
            = removeTrailingNL (a ++ '\n' :: b')
          rw [List.dropLast_append_of_ne_nil _ hJ, ih b' hlen' hcrb,
            rt_cons_prefix a hbne]
          simp

theorem execStrip_eq_spec (out : List Char) (hcr : '\r' ∉ out) :
    execStrip out = specExecStrip out := by
  unfold execStrip specExecStrip
  rcases char_split '\n' out with hno | ⟨a, b, heq, hna⟩
  · rw [dfl_no_nl hno, rt_nil]
    cases hb : out with
    | nil => simp [rustLinesL, splitCh, rustLinesPieces]
    | cons c t =>
      rw [← hb, rustLinesL_no_nl hno (by rw [hb]; simp)]
      simp
  · subst heq
    have hcrb : '\r' ∉ b := fun hm => hcr (List.mem_append_right _ (List.mem_cons_of_mem _ hm))
    rw [dfl_append b hna, rustLinesL_cons_nl b hna]
    show ((((rustLinesL b)).map (fun l => l ++ ['\n'])).flatten).dropLast = removeTrailingNL b
    exact joinPop_rustLines b.length b (le_refl _) hcrb

/-! ### C1: anchoring of the sentinel regex -/

/-- C1 (counterexample).  `eoc_regex` built in `SerialCommander::new`
(`src/lib/src/serial.rs:46`) is the unanchored `(?mR)__FALCON_EXEC_FINISHED__`:
for `exec("echo __FALCON_EXEC_FINISHED__")` the drain terminates already on
the echoed command line (returning the drained prefix `"echo "`), even
though the sentinel never occurs at the start of a line in that data. -/
theorem C1_sentinel_matches_mid_line :
    drainMatch (firstOccurIdx EOC) [] [echoSentinelMsg] = some "echo ".data ∧
    anchoredOccurIdx EOC echoSentinelMsg = none := by
  constructor <;> decide

/-- C1 (amended).  Only the login-phase wait for the `PROMPT_COMMAND` echo
uses the line-anchored regex `(?mR)^__FALCON_EXEC_FINISHED__`
(`src/lib/src/serial.rs:192`); the drain performed by `exec` uses the
unanchored `eoc_regex`, so it terminates at the leftmost occurrence of the
sentinel anywhere in the accumulated stream — in particular, for
`exec("echo __FALCON_EXEC_FINISHED__")`, inside the echoed command line,
without waiting for the prompt-echo line. -/
theorem C1_exec_drain_unanchored :
    (∀ (msgs : List (List Char)) (i : Nat),
        firstOccurIdx EOC msgs.flatten = some i →
        drainMatch (firstOccurIdx EOC) [] msgs = some (msgs.flatten.take i)) ∧
    drainMatch (firstOccurIdx EOC) []
        [echoSentinelMsg, "__FALCON_EXEC_FINISHED__\r\n".data] = some "echo ".data := by
  constructor
  · intro msgs i hsome
    have h0 : firstOccurIdx EOC ([] : List Char) = none := by decide
    have := drainMatch_eq (n := EOC) (by decide) msgs [] i h0 (by simpa using hsome)
    simpa using this
  · decide

/-- C1 (witness): the amended drain equation at the `echo hello` stream,
whose sentinel first occurs at index 19. -/
theorem C1_exec_drain_unanchored_witness :
    firstOccurIdx EOC echoHelloMsgs.flatten = some 19 ∧
    drainMatch (firstOccurIdx EOC) [] echoHelloMsgs = some (echoHelloMsgs.flatten.take 19) :=
  ⟨by decide, C1_exec_drain_unanchored.1 echoHelloMsgs 19 (by decide)⟩

/-! ### C2: the exec output contract -/

/-- C2 (confirmed).  When the drained stream contains the sentinel, `exec`
returns the accumulated data up to the leftmost sentinel occurrence,
post-processed by the line strip of `exec_timeout`; on carriage-return-free
data that strip is exactly "first line removed, one trailing newline
removed"; and on the `echo hello` stream the result is precisely `"hello"`
— no sentinel, no echoed command, no trailing newline. -/
theorem C2_exec_output_contract :
    (∀ (msgs : List (List Char)) (i : Nat),
        firstOccurIdx EOC msgs.flatten = some i →
        execOutput msgs = some (execStrip (msgs.flatten.take i))) ∧
    (∀ out : List Char, '\r' ∉ out → execStrip out = specExecStrip out) ∧
    execOutput echoHelloMsgs = some "hello".data := by
  refine ⟨?_, execStrip_eq_spec, by decide⟩
  intro msgs i hsome
  unfold execOutput
  have h0 : firstOccurIdx EOC ([] : List Char) = none := by decide
  have := drainMatch_eq (n := EOC) (by decide) msgs [] i h0 (by simpa using hsome)
  rw [this]
  simp

/-- C2 (witness): the contract applied at the `echo hello` stream and the
strip equivalence applied at a concrete CR-free drain result. -/
theorem C2_exec_output_contract_witness :
    execOutput echoHelloMsgs = some (execStrip (echoHelloMsgs.flatten.take 19)) ∧
    execStrip "echo hello\nhello\n".data = specExecStrip "echo hello\nhello\n".data :=
  ⟨C2_exec_output_contract.1 echoHelloMsgs 19 (by decide),
   C2_exec_output_contract.2.1 "echo hello\nhello\n".data (by decide)⟩

/-! ### Teardown helper lemmas -/

theorem nodeDestroy_ok (w : HostWorld) (name : String) :
    (nodeDestroy w name).2 = Except.ok () := by
  rcases hp : w.pidFile name with _ | s
  · simp [nodeDestroy, hp]
  rcases hi : parseI32 s with _ | pid
  · simp [nodeDestroy, hp, hi]
  rcases hu : w.uuidFile name with _ | u
  · simp [nodeDestroy, hp, hi, hu]
  cases hb : w.bhyvectlSpawnOk u
  · simp [nodeDestroy, hp, hi, hu, hb]
  · simp [nodeDestroy, hp, hi, hu, hb]

theorem exbind_ok {e : Type} {f : Unit → Except e Unit} : (Except.ok () >>= f) = f () := rfl

theorem exbind_err {e : Type} {x : e} {f : Unit → Except e Unit} :
    (Except.error x >>= f) = Except.error x := rfl

theorem exbind_ok_iff {e : Type} (a : Except e Unit) (f : Unit → Except e Unit) :
    (a >>= f) = Except.ok () ↔ (a = Except.ok () ∧ f () = Except.ok ()) := by
  cases a with
  | ok v => cases v; rw [exbind_ok]; simp
  | error x => rw [exbind_err]; simp

theorem deleteLinkRetry_congr {w₁ w₂ : HostWorld} (h : w₁.deleteLink = w₂.deleteLink)
    (s : String) : deleteLinkRetry w₁ s = deleteLinkRetry w₂ s := by
  unfold deleteLinkRetry
  rw [h]

theorem linkDestroyM_congr {w₁ w₂ : HostWorld} (h : w₁.deleteLink = w₂.deleteLink)
    (d : Deployment) (l : Link) : linkDestroyM w₁ d l = linkDestroyM w₂ d l := by
  unfold linkDestroyM
  rw [deleteLinkRetry_congr h, deleteLinkRetry_congr h, deleteLinkRetry_congr h,
    deleteLinkRetry_congr h]

theorem destroyLinksM_congr {w₁ w₂ : HostWorld} (h : w₁.deleteLink = w₂.deleteLink)
    (d : Deployment) : ∀ ls : List Link, destroyLinksM w₁ d ls = destroyLinksM w₂ d ls := by
  intro ls
  induction ls with
  | nil => rfl
  | cons l t ih =>
    show (linkDestroyM w₁ d l >>= fun _ => destroyLinksM w₁ d t)
      = (linkDestroyM w₂ d l >>= fun _ => destroyLinksM w₂ d t)
    rw [linkDestroyM_congr h, ih]

theorem destroyExtLinksM_congr {w₁ w₂ : HostWorld} (h : w₁.deleteLink = w₂.deleteLink)
    (d : Deployment) : ∀ xs : List ExtLink, destroyExtLinksM w₁ d xs = destroyExtLinksM w₂ d xs := by
  intro xs
  induction xs with
  | nil => rfl
  | cons x t ih =>
    show (extLinkDestroyM w₁ d x >>= fun _ => destroyExtLinksM w₁ d t)
      = (extLinkDestroyM w₂ d x >>= fun _ => destroyExtLinksM w₂ d t)
    unfold extLinkDestroyM
    rw [deleteLinkRetry_congr h, ih]

theorem netDestroyM_congr {w₁ w₂ : HostWorld} (h : w₁.deleteLink = w₂.deleteLink)
    (d : Deployment) : netDestroyM w₁ d = netDestroyM w₂ d := by
  show (destroyLinksM w₁ d d.links >>= fun _ => destroyExtLinksM w₁ d d.extLinks)
    = (destroyLinksM w₂ d d.links >>= fun _ => destroyExtLinksM w₂ d d.extLinks)
  rw [destroyLinksM_congr h, destroyExtLinksM_congr h]

theorem destroyNodesM_ok (w : HostWorld) : ∀ ns : List Node, destroyNodesM w ns = Except.ok () := by
  intro ns
  induction ns with
  | nil => rfl
  | cons n t ih =>
    show ((nodeDestroy w n.name).2 >>= fun _ => destroyNodesM w t) = Except.ok ()
    rw [nodeDestroy_ok, exbind_ok, ih]

theorem deleteLinkRetry_ok_iff (w : HostWorld) (s : String) :
    deleteLinkRetry w s = Except.ok () ↔ retryOk (w.deleteLink s) = true := by
  unfold deleteLinkRetry
  by_cases h : retryOk (w.deleteLink s) = true
  · simp [h]
  · simp [h, Bool.eq_false_iff.mpr h]

theorem linkDestroyM_ok_iff (w : HostWorld) (d : Deployment) (l : Link) :
    linkDestroyM w d l = Except.ok () ↔
      (retryOk (w.deleteLink (d.vnicLinkName l.e0)) = true ∧
       retryOk (w.deleteLink (d.simnetLinkName l.e0)) = true ∧
       retryOk (w.deleteLink (d.vnicLinkName l.e1)) = true ∧
       retryOk (w.deleteLink (d.simnetLinkName l.e1)) = true) := by
  show ((deleteLinkRetry w (d.vnicLinkName l.e0)) >>= fun _ =>
    (deleteLinkRetry w (d.simnetLinkName l.e0)) >>= fun _ =>
    (deleteLinkRetry w (d.vnicLinkName l.e1)) >>= fun _ =>
    (deleteLinkRetry w (d.simnetLinkName l.e1))) = Except.ok () ↔ _
  rw [exbind_ok_iff, exbind_ok_iff, exbind_ok_iff,
    deleteLinkRetry_ok_iff, deleteLinkRetry_ok_iff, deleteLinkRetry_ok_iff,
    deleteLinkRetry_ok_iff]

theorem destroyLinksM_ok_iff (w : HostWorld) (d : Deployment) : ∀ ls : List Link,
    destroyLinksM w d ls = Except.ok () ↔ ∀ l ∈ ls, linkDestroyM w d l = Except.ok () := by
  intro ls
  induction ls with
  | nil => simp [destroyLinksM]
  | cons l t ih =>
    show (linkDestroyM w d l >>= fun _ => destroyLinksM w d t) = Except.ok () ↔ _
    rw [exbind_ok_iff, ih]
    simp

theorem destroyExtLinksM_ok_iff (w : HostWorld) (d : Deployment) : ∀ xs : List ExtLink,
    destroyExtLinksM w d xs = Except.ok () ↔
      ∀ x ∈ xs, retryOk (w.deleteLink (d.vnicLinkName x.endpoint)) = true := by
  intro xs
  induction xs with
  | nil => simp [destroyExtLinksM]
  | cons x t ih =>
    show (extLinkDestroyM w d x >>= fun _ => destroyExtLinksM w d t) = Except.ok () ↔ _
    rw [exbind_ok_iff, ih]
    unfold extLinkDestroyM
    rw [deleteLinkRetry_ok_iff]
    simp

theorem netDestroyM_ok_iff (w : HostWorld) (d : Deployment) :
    netDestroyM w d = Except.ok () ↔
      ∀ name ∈ deleteTargets d, retryOk (w.deleteLink name) = true := by
  show (destroyLinksM w d d.links >>= fun _ => destroyExtLinksM w d d.extLinks)
      = Except.ok () ↔ _
  rw [exbind_ok_iff, destroyLinksM_ok_iff, destroyExtLinksM_ok_iff]
  unfold deleteTargets
  rw [List.forall_mem_append]
  constructor
  · rintro ⟨hl, hx⟩
    constructor
    · intro name hname
      rcases List.mem_flatten.mp hname with ⟨piece, hp, hnp⟩
      rcases List.mem_map.mp hp with ⟨l, hl', rfl⟩
      have h4 := (linkDestroyM_ok_iff w d l).mp (hl l hl')
      rcases hnp with _ | ⟨_, (_ | ⟨_, (_ | ⟨_, (_ | ⟨_, h⟩)⟩)⟩)⟩
      · exact h4.1
      · exact h4.2.1
      · exact h4.2.2.1
      · exact h4.2.2.2
      · cases h
    · intro name hname
      rcases List.mem_map.mp hname with ⟨x, hx', rfl⟩
      exact hx x hx'
  · rintro ⟨hflat, hmap⟩
    constructor
    · intro l hl
      rw [linkDestroyM_ok_iff]
      refine ⟨?_, ?_, ?_, ?_⟩ <;>
        exact hflat _ (List.mem_flatten.mpr
          ⟨_, List.mem_map.mpr ⟨l, hl, rfl⟩, by simp⟩)
    · intro x hx
      exact hmap _ (List.mem_map.mpr ⟨x, hx, rfl⟩)

theorem ite_ok_iff (b : Bool) (e : DErr) :
    (if b = true then Except.ok () else Except.error e) = Except.ok () ↔ b = true := by
  by_cases h : b = true <;> simp [h]

theorem runnerDestroyM_congr (w₁ w₂ : HostWorld) (hdel : w₁.deleteLink = w₂.deleteLink)
    (hz : w₁.zfsDestroySpawnOk = w₂.zfsDestroySpawnOk) (hr : w₁.rmSpawnOk = w₂.rmSpawnOk)
    (hc : w₁.cleanWorkspaceOk = w₂.cleanWorkspaceOk) (d : Deployment) :
    runnerDestroyM w₁ d = runnerDestroyM w₂ d := by
  show ((destroyNodesM w₁ d.nodes) >>= fun _ => (netDestroyM w₁ d) >>= fun _ =>
      (if w₁.zfsDestroySpawnOk = true then Except.ok () else Except.error (.io "zfs destroy"))
        >>= fun _ =>
      (if w₁.rmSpawnOk = true then Except.ok () else Except.error (.io "rm dsk")) >>= fun _ =>
      (if w₁.cleanWorkspaceOk = true then Except.ok ()
        else Except.error (.io "clean workspace")))
    = ((destroyNodesM w₂ d.nodes) >>= fun _ => (netDestroyM w₂ d) >>= fun _ =>
      (if w₂.zfsDestroySpawnOk = true then Except.ok () else Except.error (.io "zfs destroy"))
        >>= fun _ =>
      (if w₂.rmSpawnOk = true then Except.ok () else Except.error (.io "rm dsk")) >>= fun _ =>
      (if w₂.cleanWorkspaceOk = true then Except.ok ()
        else Except.error (.io "clean workspace")))
  rw [destroyNodesM_ok, destroyNodesM_ok, exbind_ok, exbind_ok, netDestroyM_congr hdel,
    hz, hr, hc]

/-! ### C10: Node::destroy never fails -/

/-- C10 (confirmed).  `Node::destroy` returns `Ok` for every state of the
sidecar files and of `bhyvectl`: a missing or unparseable `{node}.pid`
ends teardown before the kill; a missing `{node}.uuid` ends it after the
kill; a `bhyvectl` spawn failure is warned and swallowed; a non-zero
`bhyvectl` exit status is ignored (the world's exit-status field is not
even consulted).  It never returns an error. -/
theorem C10_node_destroy_always_ok (w : HostWorld) (name : String) :
    (nodeDestroy w name).2 = Except.ok () ∧
    (w.pidFile name = none → (nodeDestroy w name).1 = []) ∧
    (∀ s, w.pidFile name = some s → parseI32 s = none → (nodeDestroy w name).1 = []) ∧
    (∀ s pid, w.pidFile name = some s → parseI32 s = some pid → w.uuidFile name = none →
        (nodeDestroy w name).1 = [DAction.kill pid]) ∧
    (∀ s pid u, w.pidFile name = some s → parseI32 s = some pid → w.uuidFile name = some u →
        w.bhyvectlSpawnOk u = false → (nodeDestroy w name).1 = [DAction.kill pid]) := by
  refine ⟨nodeDestroy_ok w name, ?_, ?_, ?_, ?_⟩
  · intro hp
    simp [nodeDestroy, hp]
  · intro s hp hi
    simp [nodeDestroy, hp, hi]
  · intro s pid hp hi hu
    simp [nodeDestroy, hp, hi, hu]
  · intro s pid u hp hi hu hb
    simp [nodeDestroy, hp, hi, hu, hb]

/-- C10 (witness): the always-Ok result in a fully healthy world and the
early return on a missing pid file. -/
theorem C10_node_destroy_always_ok_witness :
    (nodeDestroy wAllOk "violin").2 = Except.ok () ∧ (nodeDestroy wNoPid "violin").1 = [] :=
  ⟨(C10_node_destroy_always_ok wAllOk "violin").1,
   (C10_node_destroy_always_ok wNoPid "violin").2.1 rfl⟩

/-! ### C3: destroy error policy -/

/-- C3 (counterexample).  A persistent datalink `delete_link` failure is
not swallowed by `Runner::destroy`: after the 30 retries `Link::destroy`
propagates the error with `?`, `net_destroy` propagates it further, and
`destroy` returns it — aborting before the image removal and the workspace
removal ever run — even though the workspace cleanup itself would have
succeeded. -/
theorem C3_datalink_error_propagates :
    runnerDestroyM wDeleteFails duoDep = Except.error (DErr.datalink "duo_violin_vn_vnic0") ∧
    wDeleteFails.cleanWorkspaceOk = true :=
  ⟨rfl, rfl⟩

/-- C3 (amended).  During `Runner::destroy`, per-node teardown problems
are warned and swallowed (`Node::destroy` always returns Ok, so the result
is independent of the pid files), and the exit statuses of `bhyvectl`,
`zfs destroy -r` and `rm -rf` are ignored; but datalink delete errors
(after the 30-attempt retry) and spawn/IO errors of the host commands and
of the workspace cleanup propagate: destroy returns Ok exactly when every
datalink delete eventually succeeds, both host-command spawns succeed, and
the workspace cleanup succeeds. -/
theorem C3_destroy_error_policy (w : HostWorld) (d : Deployment) :
    (runnerDestroyM w d = Except.ok () ↔
      ((∀ name ∈ deleteTargets d, retryOk (w.deleteLink name) = true) ∧
       w.zfsDestroySpawnOk = true ∧ w.rmSpawnOk = true ∧ w.cleanWorkspaceOk = true)) ∧
    (∀ b : Bool, runnerDestroyM { w with zfsDestroyExitOk := b } d = runnerDestroyM w d) ∧
    (∀ b : Bool, runnerDestroyM { w with rmExitOk := b } d = runnerDestroyM w d) ∧
    (∀ g : String → Bool, runnerDestroyM { w with bhyvectlExitOk := g } d = runnerDestroyM w d) ∧
    (∀ pf : String → Option String,
        runnerDestroyM { w with pidFile := pf } d = runnerDestroyM w d) := by
  refine ⟨?_, fun b => runnerDestroyM_congr { w with zfsDestroyExitOk := b } w rfl rfl rfl rfl d,
    fun b => runnerDestroyM_congr { w with rmExitOk := b } w rfl rfl rfl rfl d,
    fun g => runnerDestroyM_congr { w with bhyvectlExitOk := g } w rfl rfl rfl rfl d,
    fun pf => runnerDestroyM_congr { w with pidFile := pf } w rfl rfl rfl rfl d⟩
  show ((destroyNodesM w d.nodes) >>= fun _ => (netDestroyM w d) >>= fun _ =>
    (if w.zfsDestroySpawnOk = true then Except.ok () else Except.error (.io "zfs destroy"))
      >>= fun _ =>
    (if w.rmSpawnOk = true then Except.ok () else Except.error (.io "rm dsk")) >>= fun _ =>
    (if w.cleanWorkspaceOk = true then Except.ok ()
      else Except.error (.io "clean workspace"))) = Except.ok () ↔ _
  rw [destroyNodesM_ok, exbind_ok, exbind_ok_iff, exbind_ok_iff, exbind_ok_iff,
    netDestroyM_ok_iff, ite_ok_iff, ite_ok_iff, ite_ok_iff]

/-- C3 (witness): in a fully healthy world, destroy of the duo topology
returns Ok. -/
theorem C3_destroy_error_policy_witness :
    runnerDestroyM wAllOk duoDep = Except.ok () :=
  (C3_destroy_error_policy wAllOk duoDep).1.mpr ⟨by decide, rfl, rfl, rfl⟩

/-! ### C9: MAC validation -/

theorem hexCore_le {ds : List Char} {v : Nat} (h : hexCore ds = some v) : v ≤ 255 := by
  unfold hexCore at h
  by_cases h1 : ds = []
  · rw [if_pos h1] at h; cases h
  rw [if_neg h1] at h
  by_cases h2 : ds.all isHexDigitCh = true
  · rw [h2] at h
    simp only [if_true] at h
    by_cases h3 : ds.foldl (fun a c => 16 * a + hexVal c) 0 ≤ 255
    · rw [if_pos h3] at h
      cases h
      exact h3
    · rw [if_neg h3] at h; cases h
  · rw [Bool.eq_false_iff.mpr h2] at h
    simp at h

theorem parseHexU8_le {cs : List Char} {v : Nat} (h : parseHexU8 cs = some v) : v ≤ 255 :=
  hexCore_le h

theorem mapM_parseHexU8 : ∀ (ps : List (List Char)) (l : List Nat),
    ps.mapM parseHexU8 = some l → l.length = ps.length ∧ ∀ v ∈ l, v ≤ 255 := by
  intro ps
  induction ps with
  | nil =>
    intro l h
    rw [List.mapM_nil] at h
    cases h
    simp
  | cons p t ih =>
    intro l h
    rw [List.mapM_cons] at h
    cases hp : parseHexU8 p with
    | none => rw [hp] at h; cases h
    | some v =>
      rw [hp] at h
      cases ht : t.mapM parseHexU8 with
      | none => rw [ht] at h; cases h
      | some vs =>
        rw [ht] at h
        cases h
        obtain ⟨hlen, hall⟩ := ih vs ht
        refine ⟨by simp [hlen], ?_⟩
        intro v' hv'
        rcases List.mem_cons.mp hv' with rfl | hv'
        · exact parseHexU8_le hp
        · exact hall v' hv'

/-- C9 (counterexample).  The construction API accepts a malformed MAC
verbatim (`softnpu_link` stores it without inspection), the parse happens
only inside `Link::create` at launch — where `"zz"` produces a runtime
parse error — and the parser accepts two octets (`"12:34"`), so six
colon-separated octets are not required. -/
theorem C9_mac_not_checked_at_construction :
    Built badMacDep ∧
    badMacDep.links = [⟨⟨0, 0, .softnpu none⟩, ⟨1, 0, .viona (some "zz")⟩⟩] ∧
    linkMacChecks ⟨⟨0, 0, .softnpu none⟩, ⟨1, 0, .viona (some "zz")⟩⟩ = .error "zz" ∧
    macOctets "12:34" = some [18, 52] := by
  refine ⟨?_, by decide, rfl, by decide⟩
  exact Built.softnpuLink _
    (Built.node _
      (Built.node _ (Built.new "duo" (by decide)) "violin" "helios-2.5" 1 1024 (by decide))
      "piano" "helios-2.5" 1 1024 (by decide))
    0 1 (some "zz") none (by decide) (by decide)

/-- C9 (amended).  MAC strings are never inspected at topology
construction; a supplied Viona MAC is parsed during `Link::create` (at
launch) as one or more colon-separated hex `u8` fields — any count is
accepted, each field at most 255 — and a malformed field is a runtime
parse error at that point; SoftNPU MACs are never parsed at all. -/
theorem C9_mac_parse_runtime :
    (∀ (a i : Nat) (m : String), endpointMacStep ⟨a, i, .softnpu (some m)⟩ = .ok ()) ∧
    (∀ (a i : Nat) (m : String),
        (macOctets m).isSome = true → endpointMacStep ⟨a, i, .viona (some m)⟩ = .ok ()) ∧
    (∀ (a i : Nat) (m : String),
        macOctets m = none → endpointMacStep ⟨a, i, .viona (some m)⟩ = .error m) ∧
    (∀ (m : String) (l : List Nat), macOctets m = some l →
        l.length = (splitCh ':' m.data).length ∧ ∀ v ∈ l, v ≤ 255) ∧
    (∀ (d : Deployment) (a b : Nat) (m1 m2 : Option String),
        Built d → a < d.nodes.length → b < d.nodes.length →
        Built (d.softnpuLinkOp a b m1 m2)) := by
  refine ⟨fun a i m => rfl, ?_, ?_, ?_, ?_⟩
  · intro a i m h
    rcases ho : macOctets m with _ | l
    · rw [ho] at h; cases h
    · simp [endpointMacStep, ho]
  · intro a i m h
    simp [endpointMacStep, h]
  · intro m l h
    have := mapM_parseHexU8 (splitCh ':' m.data) l h
    exact ⟨this.1, this.2⟩
  · intro d a b m1 m2 hb ha hbn
    exact Built.softnpuLink d hb a b m1 m2 ha hbn

/-- C9 (witness): the runtime parse at a six-octet MAC and at a malformed
one, and construction extended with an arbitrary MAC. -/
theorem C9_mac_parse_runtime_witness :
    endpointMacStep ⟨0, 0, .viona (some "a8:40:25:ff:00:01")⟩ = .ok () ∧
    endpointMacStep ⟨0, 0, .viona (some "zz")⟩ = .error "zz" ∧
    Built (duoDep.softnpuLinkOp 0 1 (some "not-a-mac") none) :=
  ⟨C9_mac_parse_runtime.2.1 0 0 "a8:40:25:ff:00:01" (by decide),
   C9_mac_parse_runtime.2.2.1 0 0 "zz" (by decide),
   C9_mac_parse_runtime.2.2.2.2 duoDep 0 1 (some "not-a-mac") none
     (Built.link _
       (Built.node _
         (Built.node _ (Built.new "duo" (by decide)) "violin" "helios-2.5" 1 1024 (by decide))
         "piano" "helios-2.5" 1 1024 (by decide))
       0 1 (by decide) (by decide))
     (by decide) (by decide)⟩

/-! ### C7: host link name uniqueness — radix bookkeeping -/

theorem bumpNodes_length : ∀ (l : List Node) (i : Nat), (bumpNodes l i).length = l.length := by
  intro l
  induction l with
  | nil => intro i; rfl
  | cons n t ih =>
    intro i
    cases i with
    | zero => rfl
    | succ j => simp [bumpNodes, ih j]

theorem bumpNodes_get?_ne : ∀ (l : List Node) (i j : Nat), j ≠ i →
    (bumpNodes l i).get? j = l.get? j := by
  intro l
  induction l with
  | nil => intro i j _; simp [bumpNodes]
  | cons n t ih =>
    intro i j hne
    cases i with
    | zero =>
      cases j with
      | zero => exact absurd rfl hne
      | succ j' => rfl
    | succ i' =>
      cases j with
      | zero => rfl
      | succ j' =>
        show (bumpNodes t i').get? j' = t.get? j'
        exact ih i' j' (by omega)

theorem bumpNodes_get?_eq : ∀ (l : List Node) (i : Nat),
    (bumpNodes l i).get? i = (l.get? i).map (fun n => { n with radix := n.radix + 1 }) := by
  intro l
  induction l with
  | nil => intro i; simp [bumpNodes]
  | cons n t ih =>
    intro i
    cases i with
    | zero => rfl
    | succ i' =>
      show (bumpNodes t i').get? i' = (t.get? i').map _
      exact ih i'

theorem bump_nodes_length (d : Deployment) (i : Nat) :
    (d.bump i).nodes.length = d.nodes.length :=
  bumpNodes_length d.nodes i

theorem radixOf_bump_ne (d : Deployment) {i j : Nat} (h : j ≠ i) :
    (d.bump i).radixOf j = d.radixOf j := by
  unfold Deployment.radixOf Deployment.bump
  rw [bumpNodes_get?_ne d.nodes i j h]

theorem radixOf_bump_eq (d : Deployment) {i : Nat} (h : i < d.nodes.length) :
    (d.bump i).radixOf i = d.radixOf i + 1 := by
  unfold Deployment.radixOf Deployment.bump
  rw [bumpNodes_get?_eq d.nodes i]
  rcases hg : d.nodes.get? i with _ | n
  · rw [List.get?_eq_none] at hg
    omega
  · rfl

theorem radixOf_bump_le (d : Deployment) (i j : Nat) :
    d.radixOf j ≤ (d.bump i).radixOf j := by
  by_cases h : j = i
  · subst h
    by_cases hl : j < d.nodes.length
    · rw [radixOf_bump_eq d hl]; omega
    · unfold Deployment.radixOf Deployment.bump
      rw [bumpNodes_get?_eq d.nodes j]
      rcases hg : d.nodes.get? j with _ | n
      · simp
      · rw [List.get?_eq_none.mpr (by omega)] at hg
        cases hg
  · rw [radixOf_bump_ne d h]

theorem nodeNameOf_bump (d : Deployment) (i j : Nat) :
    (d.bump i).nodeNameOf j = d.nodeNameOf j := by
  unfold Deployment.nodeNameOf Deployment.bump
  by_cases h : j = i
  · subst h
    rw [bumpNodes_get?_eq d.nodes j]
    rcases hg : d.nodes.get? j with _ | n <;> simp [hg]
  · rw [bumpNodes_get?_ne d.nodes i j h]

theorem linkOp_eq_addLink (d : Deployment) (a b : Nat) :
    d.linkOp a b = d.addLink a b (.viona none) (.viona none) := rfl

theorem softnpuLinkOp_eq_addLink (d : Deployment) (a b : Nat) (m1 m2 : Option String) :
    d.softnpuLinkOp a b m1 m2 = d.addLink a b (.softnpu m2) (.viona m1) := rfl

theorem softnpuLinksOp_eq_addLink (d : Deployment) (a b : Nat) (m1 m2 : Option String) :
    d.softnpuLinksOp a b m1 m2 = d.addLink a b (.softnpu m1) (.softnpu m2) := rfl

theorem addLink_nodes_length (d : Deployment) (a b : Nat) (k1 k2 : EndpointKind) :
    (d.addLink a b k1 k2).nodes.length = d.nodes.length := by
  unfold Deployment.addLink
  rw [bump_nodes_length, bump_nodes_length]

theorem addLink_links (d : Deployment) (a b : Nat) (k1 k2 : EndpointKind) :
    (d.addLink a b k1 k2).links =
      d.links ++ [⟨⟨a, d.radixOf a, k1⟩, ⟨b, d.radixOf b, k2⟩⟩] := rfl

theorem addLink_extLinks (d : Deployment) (a b : Nat) (k1 k2 : EndpointKind) :
    (d.addLink a b k1 k2).extLinks = d.extLinks := rfl

theorem addLink_name (d : Deployment) (a b : Nat) (k1 k2 : EndpointKind) :
    (d.addLink a b k1 k2).name = d.name := rfl

theorem addLink_nodeNameOf (d : Deployment) (a b : Nat) (k1 k2 : EndpointKind) (j : Nat) :
    (d.addLink a b k1 k2).nodeNameOf j = d.nodeNameOf j := by
  unfold Deployment.addLink
  rw [nodeNameOf_bump, nodeNameOf_bump]
  rfl

theorem addLink_radixOf_le (d : Deployment) (a b : Nat) (k1 k2 : EndpointKind) (j : Nat) :
    d.radixOf j ≤ (d.addLink a b k1 k2).radixOf j := by
  unfold Deployment.addLink
  calc d.radixOf j = ({ d with links := d.links ++ [_] } : Deployment).radixOf j := rfl
    _ ≤ (({ d with links := d.links ++ [_] } : Deployment).bump a).radixOf j :=
        radixOf_bump_le _ a j
    _ ≤ _ := radixOf_bump_le _ b j

theorem addLink_radixOf_a (d : Deployment) {a b : Nat} (k1 k2 : EndpointKind)
    (ha : a < d.nodes.length) (hab : a ≠ b) :
    (d.addLink a b k1 k2).radixOf a = d.radixOf a + 1 := by
  unfold Deployment.addLink
  rw [radixOf_bump_ne _ hab, radixOf_bump_eq _ (by simpa using ha)]
  rfl

theorem addLink_radixOf_b (d : Deployment) {a b : Nat} (k1 k2 : EndpointKind)
    (hb : b < d.nodes.length) :
    (d.addLink a b k1 k2).radixOf b = (({ d with links := d.links ++
      [⟨⟨a, d.radixOf a, k1⟩, ⟨b, d.radixOf b, k2⟩⟩] } : Deployment).bump a).radixOf b + 1 := by
  unfold Deployment.addLink
  rw [radixOf_bump_eq]
  rw [bump_nodes_length]
  simpa using hb

theorem addLink_linkEndpoints (d : Deployment) (a b : Nat) (k1 k2 : EndpointKind) :
    (d.addLink a b k1 k2).linkEndpoints =
      d.linkEndpoints ++ [⟨a, d.radixOf a, k1⟩, ⟨b, d.radixOf b, k2⟩] := by
  unfold Deployment.linkEndpoints
  rw [addLink_links]
  simp

theorem addLink_extEndpoints (d : Deployment) (a b : Nat) (k1 k2 : EndpointKind) :
    (d.addLink a b k1 k2).extEndpoints = d.extEndpoints := rfl

theorem extLinkOp_linkEndpoints (d : Deployment) (ifx : String) (n : Nat) :
    (d.extLinkOp ifx n).linkEndpoints = d.linkEndpoints := rfl

theorem extLinkOp_extEndpoints (d : Deployment) (ifx : String) (n : Nat) :
    (d.extLinkOp ifx n).extEndpoints = d.extEndpoints ++ [⟨n, d.radixOf n, .viona none⟩] := by
  unfold Deployment.extEndpoints Deployment.extLinkOp
  simp [Deployment.bump]

theorem extLinkOp_nodes_length (d : Deployment) (ifx : String) (n : Nat) :
    (d.extLinkOp ifx n).nodes.length = d.nodes.length :=
  bump_nodes_length _ n

theorem extLinkOp_radixOf_le (d : Deployment) (ifx : String) (n j : Nat) :
    d.radixOf j ≤ (d.extLinkOp ifx n).radixOf j :=
  radixOf_bump_le _ n j

theorem extLinkOp_radixOf_n (d : Deployment) (ifx : String) {n : Nat}
    (hn : n < d.nodes.length) : (d.extLinkOp ifx n).radixOf n = d.radixOf n + 1 := by
  unfold Deployment.extLinkOp
  rw [radixOf_bump_eq _ (by simpa using hn)]
  rfl

theorem nodeOp_linkEndpoints (d : Deployment) (name image : String) (c m : Nat) :
    (d.nodeOp name image c m).linkEndpoints = d.linkEndpoints := rfl

theorem nodeOp_extEndpoints (d : Deployment) (name image : String) (c m : Nat) :
    (d.nodeOp name image c m).extEndpoints = d.extEndpoints := rfl

theorem nodeOp_radixOf (d : Deployment) (name image : String) (c m : Nat) {j : Nat}
    (hj : j < d.nodes.length) : (d.nodeOp name image c m).radixOf j = d.radixOf j := by
  unfold Deployment.radixOf Deployment.nodeOp
  rw [List.get?_append hj]

theorem nodeOp_nodes_length (d : Deployment) (name image : String) (c m : Nat) :
    (d.nodeOp name image c m).nodes.length = d.nodes.length + 1 := by
  simp [Deployment.nodeOp]

theorem addLink_radixOf_a_lt (d : Deployment) {a b : Nat} (k1 k2 : EndpointKind)
    (ha : a < d.nodes.length) (hab : a ≠ b) :
    d.radixOf a < (d.addLink a b k1 k2).radixOf a := by
  rw [addLink_radixOf_a d k1 k2 ha hab]
  omega

theorem addLink_radixOf_b_lt (d : Deployment) {a b : Nat} (k1 k2 : EndpointKind)
    (hb : b < d.nodes.length) :
    d.radixOf b < (d.addLink a b k1 k2).radixOf b := by
  rw [addLink_radixOf_b d k1 k2 hb]
  have := radixOf_bump_le ({ d with links := d.links ++
    [⟨⟨a, d.radixOf a, k1⟩, ⟨b, d.radixOf b, k2⟩⟩] } : Deployment) a b
  have h0 : ({ d with links := d.links ++
    [⟨⟨a, d.radixOf a, k1⟩, ⟨b, d.radixOf b, k2⟩⟩] } : Deployment).radixOf b
      = d.radixOf b := rfl
  omega

/-! ### C7: invariant preservation -/

theorem inv_new (name : String) : Inv (Deployment.new name) := by
  refine ⟨?_, ?_, ?_, ?_, ?_⟩ <;>
    simp [Deployment.linkEndpoints, Deployment.extEndpoints, Deployment.new]

theorem inv_nodeOp (d : Deployment) (nm im : String) (c m : Nat) (h : Inv d) :
    Inv (d.nodeOp nm im c m) := by
  obtain ⟨h1, h2, h3, h4, h5⟩ := h
  refine ⟨?_, ?_, h3, h4, h5⟩
  · intro e he
    obtain ⟨hw1, hw2⟩ := h1 e he
    refine ⟨?_, ?_⟩
    · rw [nodeOp_nodes_length]; omega
    · rw [nodeOp_radixOf d nm im c m hw1]; exact hw2
  · intro e he
    obtain ⟨hw1, hw2⟩ := h2 e he
    refine ⟨?_, ?_⟩
    · rw [nodeOp_nodes_length]; omega
    · rw [nodeOp_radixOf d nm im c m hw1]; exact hw2

theorem inv_addLink (d : Deployment) {a b : Nat} (k1 k2 : EndpointKind)
    (ha : a < d.nodes.length) (hb : b < d.nodes.length) (hab : a ≠ b) (h : Inv d) :
    Inv (d.addLink a b k1 k2) := by
  obtain ⟨h1, h2, h3, h4, h5⟩ := h
  have hEL := addLink_linkEndpoints d a b k1 k2
  have hEX := addLink_extEndpoints d a b k1 k2
  have hLEN := addLink_nodes_length d a b k1 k2
  refine ⟨?_, ?_, ?_, ?_, ?_⟩
  · intro e he
    rw [hEL] at he
    rcases List.mem_append.mp he with hold | hnew
    · obtain ⟨hw1, hw2⟩ := h1 e hold
      exact ⟨by omega, lt_of_lt_of_le hw2 (addLink_radixOf_le d a b k1 k2 e.node)⟩
    · rcases (by simpa using hnew : e = (⟨a, d.radixOf a, k1⟩ : Endpoint)
          ∨ e = (⟨b, d.radixOf b, k2⟩ : Endpoint)) with rfl | rfl
      · exact ⟨by rw [hLEN]; exact ha, addLink_radixOf_a_lt d k1 k2 ha hab⟩
      · exact ⟨by rw [hLEN]; exact hb, addLink_radixOf_b_lt d k1 k2 hb⟩
  · intro e he
    rw [hEX] at he
    obtain ⟨hw1, hw2⟩ := h2 e he
    exact ⟨by omega, lt_of_lt_of_le hw2 (addLink_radixOf_le d a b k1 k2 e.node)⟩
  · rw [hEL, List.pairwise_append]
    refine ⟨h3, ?_, ?_⟩
    · refine List.pairwise_cons.mpr ⟨?_, by simp⟩
      intro e' he'
      rcases (by simpa using he' : e' = (⟨b, d.radixOf b, k2⟩ : Endpoint)) with rfl
      intro hnode
      exact absurd hnode hab
    · intro e hold e' hnew
      rcases (by simpa using hnew : e' = (⟨a, d.radixOf a, k1⟩ : Endpoint)
          ∨ e' = (⟨b, d.radixOf b, k2⟩ : Endpoint)) with rfl | rfl
      · intro hnode
        obtain ⟨hw1, hw2⟩ := h1 e hold
        have hnode' : e.node = a := hnode
        have hlt : e.index < d.radixOf a := by rw [← hnode']; exact hw2
        show e.index ≠ d.radixOf a
        omega
      · intro hnode
        obtain ⟨hw1, hw2⟩ := h1 e hold
        have hnode' : e.node = b := hnode
        have hlt : e.index < d.radixOf b := by rw [← hnode']; exact hw2
        show e.index ≠ d.radixOf b
        omega
  · rw [hEX]; exact h4
  · intro e hel e' hex
    rw [hEL] at hel
    rw [hEX] at hex
    rcases List.mem_append.mp hel with hold | hnew
    · exact h5 e hold e' hex
    · rcases (by simpa using hnew : e = (⟨a, d.radixOf a, k1⟩ : Endpoint)
          ∨ e = (⟨b, d.radixOf b, k2⟩ : Endpoint)) with rfl | rfl
      · intro hnode
        obtain ⟨hw1, hw2⟩ := h2 e' hex
        have hnode' : a = e'.node := hnode
        have hlt : e'.index < d.radixOf a := by rw [hnode']; exact hw2
        show d.radixOf a ≠ e'.index
        omega
      · intro hnode
        obtain ⟨hw1, hw2⟩ := h2 e' hex
        have hnode' : b = e'.node := hnode
        have hlt : e'.index < d.radixOf b := by rw [hnode']; exact hw2
        show d.radixOf b ≠ e'.index
        omega

theorem inv_extLinkOp (d : Deployment) (ifx : String) {n : Nat}
    (hn : n < d.nodes.length) (h : Inv d) : Inv (d.extLinkOp ifx n) := by
  obtain ⟨h1, h2, h3, h4, h5⟩ := h
  have hEL := extLinkOp_linkEndpoints d ifx n
  have hEX := extLinkOp_extEndpoints d ifx n
  have hLEN := extLinkOp_nodes_length d ifx n
  refine ⟨?_, ?_, ?_, ?_, ?_⟩
  · intro e he
    rw [hEL] at he
    obtain ⟨hw1, hw2⟩ := h1 e he
    exact ⟨by omega, lt_of_lt_of_le hw2 (extLinkOp_radixOf_le d ifx n e.node)⟩
  · intro e he
    rw [hEX] at he
    rcases List.mem_append.mp he with hold | hnew
    · obtain ⟨hw1, hw2⟩ := h2 e hold
      exact ⟨by omega, lt_of_lt_of_le hw2 (extLinkOp_radixOf_le d ifx n e.node)⟩
    · rcases (by simpa using hnew : e = (⟨n, d.radixOf n, .viona none⟩ : Endpoint)) with rfl
      refine ⟨by rw [hLEN]; exact hn, ?_⟩
      show d.radixOf n < (d.extLinkOp ifx n).radixOf n
      rw [extLinkOp_radixOf_n d ifx hn]
      omega
  · rw [hEL]; exact h3
  · rw [hEX, List.pairwise_append]
    refine ⟨h4, by simp, ?_⟩
    intro e hold e' hnew
    rcases (by simpa using hnew : e' = (⟨n, d.radixOf n, .viona none⟩ : Endpoint)) with rfl
    intro hnode
    obtain ⟨hw1, hw2⟩ := h2 e hold
    have hnode' : e.node = n := hnode
    have hlt : e.index < d.radixOf n := by rw [← hnode']; exact hw2
    show e.index ≠ d.radixOf n
    omega
  · intro e hel e' hex
    rw [hEL] at hel
    rw [hEX] at hex
    rcases List.mem_append.mp hex with hold | hnew
    · exact h5 e hel e' hold
    · rcases (by simpa using hnew : e' = (⟨n, d.radixOf n, .viona none⟩ : Endpoint)) with rfl
      intro hnode
      obtain ⟨hw1, hw2⟩ := h1 e hel
      have hnode' : e.node = n := hnode
      have hlt : e.index < d.radixOf n := by rw [← hnode']; exact hw2
      show e.index ≠ d.radixOf n
      omega

theorem noSelfLinks_addLink {d : Deployment} {a b : Nat} {k1 k2 : EndpointKind}
    (h : NoSelfLinks (d.addLink a b k1 k2)) : NoSelfLinks d ∧ a ≠ b := by
  constructor
  · intro l hl
    apply h l
    rw [addLink_links]
    exact List.mem_append_left _ hl
  · have := h ⟨⟨a, d.radixOf a, k1⟩, ⟨b, d.radixOf b, k2⟩⟩ (by
      rw [addLink_links]
      exact List.mem_append_right _ (by simp))
    simpa using this

theorem built_inv {d : Deployment} (hb : Built d) : NoSelfLinks d → Inv d := by
  induction hb with
  | new name h => intro _; exact inv_new name
  | node d hb name image cores memory h ih =>
    intro hns
    exact inv_nodeOp d name image cores memory (ih hns)
  | link d hb a b ha hbn ih =>
    rw [linkOp_eq_addLink]
    intro hns
    obtain ⟨hns', hab⟩ := noSelfLinks_addLink hns
    exact inv_addLink d _ _ ha hbn hab (ih hns')
  | softnpuLink d hb a b m1 m2 ha hbn ih =>
    rw [softnpuLinkOp_eq_addLink]
    intro hns
    obtain ⟨hns', hab⟩ := noSelfLinks_addLink hns
    exact inv_addLink d _ _ ha hbn hab (ih hns')
  | softnpuLinks d hb a b m1 m2 ha hbn ih =>
    rw [softnpuLinksOp_eq_addLink]
    intro hns
    obtain ⟨hns', hab⟩ := noSelfLinks_addLink hns
    exact inv_addLink d _ _ ha hbn hab (ih hns')
  | extLink d hb ifx n hn ih =>
    intro hns
    exact inv_extLinkOp d ifx hn (ih hns)

/-! ### C7: unique decomposition of host link names -/

theorem head_digit_split : ∀ (a1 a2 b1 b2 : List Char), a1 ++ b1 = a2 ++ b2 →
    a1.all Char.isDigit = true → a2.all Char.isDigit = true →
    headNotDigit b1 → headNotDigit b2 → a1 = a2 ∧ b1 = b2 := by
  intro a1
  induction a1 with
  | nil =>
    intro a2 b1 b2 h ha1 ha2 hb1 hb2
    cases a2 with
    | nil => exact ⟨rfl, by simpa using h⟩
    | cons x xs =>
      exfalso
      simp only [List.nil_append, List.cons_append] at h
      have hx : x.isDigit = true := List.all_eq_true.mp ha2 x (List.mem_cons_self x xs)
      have := hb1 x (by rw [h]; rfl)
      rw [hx] at this
      cases this
  | cons c cs ih =>
    intro a2 b1 b2 h ha1 ha2 hb1 hb2
    cases a2 with
    | nil =>
      exfalso
      simp only [List.cons_append, List.nil_append] at h
      have hc : c.isDigit = true := List.all_eq_true.mp ha1 c (List.mem_cons_self c cs)
      have := hb2 c (by rw [← h]; rfl)
      rw [hc] at this
      cases this
    | cons x xs =>
      simp only [List.cons_append, List.cons.injEq] at h
      obtain ⟨rfl, h2⟩ := h
      rw [List.all_cons, Bool.and_eq_true] at ha1 ha2
      obtain ⟨h3, h4⟩ := ih xs b1 b2 h2 ha1.2 ha2.2 hb1 hb2
      exact ⟨by rw [h3], h4⟩

theorem suffix_digit_split (X1 X2 r1 r2 : List Char) (h : X1 ++ r1 = X2 ++ r2)
    (h1 : r1.all Char.isDigit = true) (h2 : r2.all Char.isDigit = true)
    (hx1 : lastNotDigit X1) (hx2 : lastNotDigit X2) : X1 = X2 ∧ r1 = r2 := by
  have hrev := congrArg List.reverse h
  rw [List.reverse_append, List.reverse_append] at hrev
  have hnd1 : headNotDigit X1.reverse := by
    intro c hc
    rw [List.head?_reverse] at hc
    exact hx1 c hc
  have hnd2 : headNotDigit X2.reverse := by
    intro c hc
    rw [List.head?_reverse] at hc
    exact hx2 c hc
  obtain ⟨hr, hX⟩ := head_digit_split r1.reverse r2.reverse X1.reverse X2.reverse hrev
    (by rw [List.all_reverse]; exact h1) (by rw [List.all_reverse]; exact h2) hnd1 hnd2
  exact ⟨List.reverse_injective hX, List.reverse_injective hr⟩

theorem designator_data_length (k : EndpointKind) : k.designator.data.length = 2 := by
  cases k <;> rfl

theorem simnetName_parts (dep n1 n2 : String) (k1 k2 : EndpointKind) (i1 i2 : Nat)
    (h : dep ++ "_" ++ n1 ++ "_" ++ k1.designator ++ "_sim" ++ natRepr i1
       = dep ++ "_" ++ n2 ++ "_" ++ k2.designator ++ "_sim" ++ natRepr i2) :
    n1 = n2 ∧ i1 = i2 := by
  have hd := congrArg String.data h
  simp only [String.data_append] at hd
  have hnr1 : (natRepr i1).data = decDigits i1 := rfl
  have hnr2 : (natRepr i2).data = decDigits i2 := rfl
  rw [hnr1, hnr2] at hd
  have hlast : ∀ (p : List Char),
      lastNotDigit (p ++ ("_sim" : String).data) := by
    intro p c hc
    rw [List.getLast?_append_of_ne_nil p (by decide)] at hc
    have hgl : (("_sim" : String).data).getLast? = some 'm' := rfl
    rw [hgl] at hc
    injection hc with h'
    subst h'
    decide
  obtain ⟨hX, hr⟩ := suffix_digit_split
    (dep.data ++ ("_" : String).data ++ n1.data ++ ("_" : String).data
      ++ k1.designator.data ++ ("_sim" : String).data)
    (dep.data ++ ("_" : String).data ++ n2.data ++ ("_" : String).data
      ++ k2.designator.data ++ ("_sim" : String).data)
    (decDigits i1) (decDigits i2) hd (decDigits_all i1) (decDigits_all i2)
    (by
      have := hlast (dep.data ++ ("_" : String).data ++ n1.data ++ ("_" : String).data
        ++ k1.designator.data)
      simpa [List.append_assoc] using this)
    (by
      have := hlast (dep.data ++ ("_" : String).data ++ n2.data ++ ("_" : String).data
        ++ k2.designator.data)
      simpa [List.append_assoc] using this)
  refine ⟨?_, decDigits_inj hr⟩
  have hX' : dep.data ++ ("_" : String).data
      ++ (n1.data ++ (("_" : String).data ++ (k1.designator.data ++ ("_sim" : String).data)))
    = dep.data ++ ("_" : String).data
      ++ (n2.data ++ (("_" : String).data ++ (k2.designator.data ++ ("_sim" : String).data))) := by
    have h1a : dep.data ++ ("_" : String).data
        ++ (n1.data ++ (("_" : String).data ++ (k1.designator.data ++ ("_sim" : String).data)))
      = dep.data ++ ("_" : String).data ++ n1.data ++ ("_" : String).data
        ++ k1.designator.data ++ ("_sim" : String).data := by
      simp [List.append_assoc]
    have h2a : dep.data ++ ("_" : String).data
        ++ (n2.data ++ (("_" : String).data ++ (k2.designator.data ++ ("_sim" : String).data)))
      = dep.data ++ ("_" : String).data ++ n2.data ++ ("_" : String).data
        ++ k2.designator.data ++ ("_sim" : String).data := by
      simp [List.append_assoc]
    rw [h1a, h2a]
    exact hX
  have hcancel := List.append_cancel_left hX'
  have hlen : (("_" : String).data ++ (k1.designator.data ++ ("_sim" : String).data)).length
      = (("_" : String).data ++ (k2.designator.data ++ ("_sim" : String).data)).length := by
    cases k1 <;> cases k2 <;> rfl
  obtain ⟨hn, _⟩ := List.append_inj' hcancel hlen
  exact String.ext hn

theorem namesDistinct_inj (d : Deployment) (h : NamesDistinct d) {i j : Nat}
    (hi : i < d.nodes.length) (hj : j < d.nodes.length)
    (hname : d.nodeNameOf i = d.nodeNameOf j) : i = j := by
  have hname_get : ∀ {k : Nat} (hk : k < d.nodes.length),
      d.nodeNameOf k = (d.nodes.get ⟨k, hk⟩).name := by
    intro k hk
    unfold Deployment.nodeNameOf
    rw [List.get?_eq_get hk]
  have hpw := List.pairwise_iff_get.mp h
  by_contra hne
  have hlen : (d.nodes.map Node.name).length = d.nodes.length := by simp
  rcases Nat.lt_or_ge i j with hij | hij
  · have := hpw ⟨i, by omega⟩ ⟨j, by omega⟩ (by simpa using hij)
    apply this
    rw [List.get_map, List.get_map]
    rw [hname_get hi, hname_get hj] at hname
    exact hname
  · have hji : j < i := by omega
    have := hpw ⟨j, by omega⟩ ⟨i, by omega⟩ (by simpa using hji)
    apply this
    rw [List.get_map, List.get_map]
    rw [hname_get hi, hname_get hj] at hname
    exact hname.symm

theorem simnetName_ne (d : Deployment) (hnd : NamesDistinct d) (e e' : Endpoint)
    (hwe : EndpointWF d e) (hwe' : EndpointWF d e') (hdix : DistinctIdx e e') :
    d.simnetLinkName e ≠ d.simnetLinkName e' := by
  intro heq
  unfold Deployment.simnetLinkName at heq
  obtain ⟨hn, hi⟩ := simnetName_parts d.name (d.nodeNameOf e.node) (d.nodeNameOf e'.node)
    e.kind e'.kind e.index e'.index heq
  have hnode : e.node = e'.node := namesDistinct_inj d hnd hwe.1 hwe'.1 hn
  exact hdix hnode hi

/-- C7 (counterexample).  `softnpu_links(n, n, Some "a", Some "b")` reads
the node's radix for both endpoints before bumping it, so the two distinct
endpoints of the self-link share index 0 and therefore the same host
simnet name `duo_violin_sn_sim0`. -/
theorem C7_selflink_name_collision :
    Built selfLinkDep ∧
    (⟨0, 0, .softnpu (some "a")⟩ : Endpoint) ≠ ⟨0, 0, .softnpu (some "b")⟩ ∧
    (⟨0, 0, .softnpu (some "a")⟩ : Endpoint) ∈ selfLinkDep.allEndpoints ∧
    (⟨0, 0, .softnpu (some "b")⟩ : Endpoint) ∈ selfLinkDep.allEndpoints ∧
    selfLinkDep.simnetLinkName ⟨0, 0, .softnpu (some "a")⟩ =
      selfLinkDep.simnetLinkName ⟨0, 0, .softnpu (some "b")⟩ := by
  refine ⟨?_, by decide, by decide, by decide, rfl⟩
  exact Built.softnpuLinks _
    (Built.node _ (Built.new "duo" (by decide)) "violin" "helios-2.5" 1 1024 (by decide))
    0 0 (some "a") (some "b") (by decide) (by decide)

/-- C7 (amended).  In a Deployment built through any sequence of `node`,
`link`, `softnpu_link`, `softnpu_links` and `ext_link` calls in which
distinct nodes carry distinct names and no link joins a node to itself,
the host simnet names `{deployment}_{node}_{tag}_sim{index}` of any two
distinct endpoint occurrences differ. -/
theorem C7_simnet_names_distinct (d : Deployment) (hb : Built d)
    (hself : NoSelfLinks d) (hnames : NamesDistinct d) :
    List.Pairwise (fun e e' => d.simnetLinkName e ≠ d.simnetLinkName e') d.allEndpoints := by
  obtain ⟨h1, h2, h3, h4, h5⟩ := built_inv hb hself
  have hwf : ∀ e ∈ d.allEndpoints, EndpointWF d e := by
    intro e he
    rcases List.mem_append.mp he with hl | hx
    · exact h1 e hl
    · exact h2 e hx
  have hdix : List.Pairwise DistinctIdx d.allEndpoints := by
    rw [Deployment.allEndpoints, List.pairwise_append]
    exact ⟨h3, h4, h5⟩
  refine List.Pairwise.imp_of_mem ?_ hdix
  intro e e' he he' hd
  exact simnetName_ne d hnames e e' (hwf e he) (hwf e' he') hd

/-- C7 (witness): the amended invariant instantiated on the duo topology
(two distinctly named nodes, one link). -/
theorem C7_simnet_names_distinct_witness :
    List.Pairwise (fun e e' => duoDep.simnetLinkName e ≠ duoDep.simnetLinkName e')
      duoDep.allEndpoints :=
  C7_simnet_names_distinct duoDep
    (Built.link _
      (Built.node _
        (Built.node _ (Built.new "duo" (by decide)) "violin" "helios-2.5" 1 1024 (by decide))
        "piano" "helios-2.5" 1 1024 (by decide))
      0 1 (by decide) (by decide))
    (by intro l hl; fin_cases hl <;> decide)
    (by show List.Pairwise (fun a b => a ≠ b) (duoDep.nodes.map Node.name); decide)

end Falcon
